import Mathlib

/-!
Verification development for the `ai_chat_defects` repository: shallow
embeddings of the tool-calling orchestration loop, the chat-history trimming
policies, the relational (PostgreSQL-side) query executor, the MCP tool
handlers, the relationship-discovery engine and the ObjectId coercion helper,
together with theorems settling the specification's claims about them.

Conventions used throughout:
  - JavaScript strings are Lean `String`s; JS `Array` is `List`; a JS plain
    object used as an ordered key/value record is `List (String × _)` in
    insertion order.
  - JS numbers that only ever hold integers are `Nat`; the relationship
    strength (a ratio of small sample counts) is `ℚ`.
  - Fallible paths (`throw` / `try-catch`) are `Except`.
  - Calls to the underlying database connection are made observable by
    threading an explicit trace (the list of SQL texts handed to the
    connection) through the embedded executor.
-/

/- ================================================================
   §1  JS string helpers shared by several embedded functions
   ================================================================ -/

/-- The ASCII whitespace characters matched by the JS regexp `\s`
(the Unicode space classes, irrelevant to this code base, are elided). -/
def jsIsWs (c : Char) : Bool :=
  c = ' ' || c = '\t' || c = '\n' || c = '\r' || c = '\x0b' || c = '\x0c'

/-- One-pass splitter behind `jsSplitWs`: `inWs` records whether the previous
character belonged to the whitespace run currently being collapsed, `cur` is
the segment under construction (reversed). -/
def jsSplitWsCore : List Char → Bool → List Char → List String
  | [], _, cur => [String.mk cur.reverse]
  | c :: rest, inWs, cur =>
    if jsIsWs c then
      if inWs then jsSplitWsCore rest true cur
      else String.mk cur.reverse :: jsSplitWsCore rest true []
    else jsSplitWsCore rest false (c :: cur)

/-- JS `str.split(/\s+/)`: splits on maximal whitespace runs, keeping the
empty segments a leading or trailing run produces (`"".split` gives `[""]`). -/
def jsSplitWs (s : String) : List String :=
  jsSplitWsCore s.toList false []

/-- `pat` is a prefix of `l` (over character lists). -/
def charsPrefixOf : List Char → List Char → Bool
  | [], _ => true
  | _ :: _, [] => false
  | p :: ps, c :: cs => p == c && charsPrefixOf ps cs

/-- `pat` occurs contiguously inside `l` (over character lists). -/
def charsInfixOf : List Char → List Char → Bool
  | pat, [] => charsPrefixOf pat []
  | pat, c :: cs => charsPrefixOf pat (c :: cs) || charsInfixOf pat cs

/-- JS `String.prototype.includes` (substring containment). -/
def strIncludes (s pat : String) : Bool :=
  charsInfixOf pat.toList s.toList

/-- JS truthiness of an optional numeric option (`if (limit && …)`). -/
def jsTruthyNat : Option Nat → Bool
  | none => false
  | some n => n != 0

/-- JS `String.prototype.trim` (whitespace stripped from both ends), defined
structurally over the character list so that it evaluates by `decide`. -/
def jsTrim (s : String) : String :=
  String.mk (((s.toList.dropWhile jsIsWs).reverse.dropWhile jsIsWs).reverse)

/-- JS `String.prototype.toLowerCase` on the ASCII strings this code base
handles, defined structurally over the character list. -/
def jsToLower (s : String) : String :=
  String.mk (s.toList.map Char.toLower)

/-- JS `String.prototype.startsWith`. -/
def strStartsWith (s pat : String) : Bool :=
  charsPrefixOf pat.toList s.toList

/-- JS `String.prototype.endsWith`. -/
def strEndsWith (s pat : String) : Bool :=
  charsPrefixOf pat.toList.reverse s.toList.reverse

/- ================================================================
   §2  Orchestration loop (src/client-side/index.js startChat,
       src/unnamed/part_002 chat_message handler)
   ================================================================ -/

/-- The classified outcome of one oracle (Gemini) invocation, as produced by
`askGemini` / `askAI`: a communication error, a final text, or a tool call. -/
inductive AiResponse
  | error (text : String)
  | text (text : String)
  | toolCall (toolName toolArgs toolResult : String)
deriving DecidableEq

/-- Whether a response is a tool call (the only non-terminal case). -/
def AiResponse.isToolCall : AiResponse → Bool
  | .toolCall _ _ _ => true
  | _ => false

/-- The text a terminal response carries (`""` for a tool call). -/
def AiResponse.respText : AiResponse → String
  | .error t => t
  | .text t => t
  | .toolCall _ _ _ => ""

/-- The configured maximum number of oracle invocations per turn
(`const maxIterations = 15`). -/
def maxIterations : Nat := 15

/-- The inner `while (iterationCount < maxIterations)` loop of one turn.
`f i` is the oracle's response to the (i+1)-st invocation; `fuel` is
`maxIterations - iterationCount` and `c` the number of invocations made so
far.  Returns the `finalResponse` accumulated by the loop body (`""` if the
loop exhausted its budget on a tool call) and the final `iterationCount`.
Tool-call iterations only append to the history, which does not influence
either output, so the history is not threaded here. -/
def chatLoop (f : Nat → AiResponse) : Nat → Nat → String × Nat
  | 0, c => ("", c)
  | fuel + 1, c =>
    match f c with
    | .error t => (t, c + 1)
    | .text t => (t, c + 1)
    | .toolCall _ _ _ => chatLoop f fuel (c + 1)

/-- One full turn's loop phase: `while` loop started with
`iterationCount = 0` and the full budget. -/
def runTurn (f : Nat → AiResponse) : String × Nat :=
  chatLoop f maxIterations 0

/-- The turn's emitted final response: after the loop,
`if (iterationCount >= maxIterations) finalResponse = advisory` overwrites
whatever the loop produced. -/
def turnFinal (advisory : String) (f : Nat → AiResponse) : String :=
  let r := runTurn f
  if maxIterations ≤ r.2 then advisory else r.1

/-- The fixed advisory text of the terminal client
(`src/client-side/index.js`). -/
def clientAdvisory : String :=
  "I've reached the maximum number of tool calls. Let me provide you with what I've found so far."

/-- Oracle behaviour used to exhibit the 15th-iteration overwrite: fourteen
tool calls followed by a final text. -/
def cexOracle : Nat → AiResponse :=
  fun i => if i < 14 then .toolCall "tool" "args" "result" else .text "done"

/- ================================================================
   §3  Chat history messages and the trimming policies
       (src/client-side/index.js trimChatHistory,
        src/unnamed/part_002 memory management and token trim)
   ================================================================ -/

/-- One element of a Gemini-style message's `parts` array; each part carries
at most one of the three payload fields. -/
structure GPart where
  text : Option String := none
  functionCall : Option String := none
  functionResponse : Option String := none
deriving DecidableEq

/-- A Gemini-style chat history message (`{role, parts}`). -/
structure GMsg where
  role : String
  parts : List GPart
deriving DecidableEq

instance : Inhabited GMsg := ⟨⟨"", []⟩⟩

/-- `message.parts.some(part => part.functionCall)`. -/
def hasFunctionCall (m : GMsg) : Bool :=
  m.parts.any (fun p => p.functionCall.isSome)

/-- `message.parts.some(part => part.functionResponse)`. -/
def hasFunctionResponse (m : GMsg) : Bool :=
  m.parts.any (fun p => p.functionResponse.isSome)

/-- `const MAX_HISTORY_LENGTH = 25`. -/
def MAX_HISTORY_LENGTH : Nat := 25

/-- `const PRESERVE_SYSTEM_MESSAGES = 2`. -/
def PRESERVE_SYSTEM_MESSAGES : Nat := 2

/-- The orphan test of `trimChatHistory`'s backward scan at index `i`:
a `model` message with a `functionCall` part whose successor is missing, is
not a `user` message, or carries no `functionResponse` part. -/
def isOrphanAt (h : List GMsg) (i : Nat) : Bool :=
  match h[i]? with
  | none => false
  | some m =>
    m.role == "model" && hasFunctionCall m &&
      (match h[i + 1]? with
       | none => true
       | some nx => !(nx.role == "user" && hasFunctionResponse nx))

/-- Largest index `< bound` at which `isOrphanAt` holds (the first hit of the
JS `for (let i = length - 1; i >= 0; i--)` scan). -/
def lastOrphanBelow (h : List GMsg) : Nat → Option Nat
  | 0 => none
  | bound + 1 => if isOrphanAt h bound then some bound else lastOrphanBelow h bound

/-- `validEndIndex` after the backward scan: the orphan's index if one was
found, otherwise the history length. -/
def validEnd (h : List GMsg) : Nat :=
  match lastOrphanBelow h h.length with
  | some i => i
  | none => h.length

/-- `trimChatHistory` (count-based trim of the terminal client): keep the
first 2 messages plus `slice(startIndex, validEndIndex)` where
`startIndex = max(2, validEndIndex - 23)`. -/
def trimChatHistory (h : List GMsg) : List GMsg :=
  if MAX_HISTORY_LENGTH < h.length then
    let validEndIndex := validEnd h
    let systemMessages := h.take PRESERVE_SYSTEM_MESSAGES
    let remainingSpace := MAX_HISTORY_LENGTH - PRESERVE_SYSTEM_MESSAGES
    let startIndex := max PRESERVE_SYSTEM_MESSAGES (validEndIndex - remainingSpace)
    let recentMessages := (h.take validEndIndex).drop startIndex
    systemMessages ++ recentMessages
  else h

/-- The count-based memory management of the websocket server's
`chat_message` handler: `length > 50` keeps `slice(0, 2) ++ slice(-20)`. -/
def memoryTrim (h : List GMsg) : List GMsg :=
  if 50 < h.length then h.take 2 ++ h.drop (h.length - 20) else h

/-- The more aggressive count trim of the second handler variant:
`length > 5` keeps `slice(0, 2) ++ slice(-3)`. -/
def shortTrim (h : List GMsg) : List GMsg :=
  if 5 < h.length then h.take 2 ++ h.drop (h.length - 3) else h

/-- `countTokens([msg])` for one message:
`(msg.parts?.[0]?.text || '').split(/\s+/).length`. -/
def msgTokens (m : GMsg) : Nat :=
  (jsSplitWs ((m.parts.head?.bind GPart.text).getD "")).length

/-- `countTokens(chatHistory)`: reduce over the history, summing per-message
approximate token counts from 0. -/
def countTokens (h : List GMsg) : Nat :=
  h.foldl (fun sum msg => sum + msgTokens msg) 0

/-- `const MAX_TOKENS = 262144`. -/
def MAX_TOKENS : Nat := 262144

/-- The backward accumulation loop of the token-budget trim:
`for (let i = length - 1; i >= 2; i--) { if (tokens + msgTokens > MAX_TOKENS)
break; recent.unshift(msg); tokens += msgTokens; }`.  The second argument is
the running `tokens` accumulator, the third the current index `i`. -/
def collectRecent (h : List GMsg) : Nat → Nat → List GMsg
  | _, 0 => []
  | _, 1 => []
  | tokens, i + 2 =>
    let msg := h.getD (i + 2) default
    let mt := msgTokens msg
    if MAX_TOKENS < tokens + mt then []
    else collectRecent h (tokens + mt) (i + 1) ++ [msg]

/-- The token-budget trim of the websocket server: when the approximate token
count exceeds the budget, keep the first 2 messages and walk backward from
the most recent message, with the accumulator initialised to the priming
messages' own token count (`let tokens = countTokens(systemMessages)`). -/
def trimTokens (h : List GMsg) : List GMsg :=
  if MAX_TOKENS < countTokens h then
    let systemMessages := h.take 2
    systemMessages ++ collectRecent h (countTokens systemMessages) (h.length - 1)
  else h

/-- Modelled from the spec: the token-budget trim as the specification words
it, "always keeping the priming messages outside that budget count" — i.e.
the same backward walk but with the accumulator started at 0 rather than at
the priming messages' token count.  Used only to compare against
`trimTokens`. -/
def specTokenTrim (h : List GMsg) : List GMsg :=
  if MAX_TOKENS < countTokens h then
    h.take 2 ++ collectRecent h 0 (h.length - 1)
  else h

/- ================================================================
   §4  Relational executor and MCP tool handlers
       (src/mcp-mongo-project/src/services/postgres-mcp-service.js
        executeOperation, src/mcp-mongo-project/src/index.js tools)
   ================================================================ -/

/-- A row as the relational driver returns it; only the projections the
embedded executor reads are modelled (`row.total`, `row.exists`), plus an
opaque tag so distinct rows stay distinguishable. -/
structure Row where
  total : Option Nat := none
  existsField : Option Bool := none
  tag : Nat := 0
deriving DecidableEq

/-- MCP SDK error codes used by the embedded services. -/
inductive McpCode
  | invalidParams
  | internalError
deriving DecidableEq

/-- `new McpError(code, message)`. -/
structure McpErr where
  code : McpCode
  message : String
deriving DecidableEq

/-- The numeric rendering of an MCP error code (JSON-RPC). -/
def McpCode.render : McpCode → String
  | .invalidParams => "-32602"
  | .internalError => "-32603"

/-- `error.message` of a thrown `McpError`
(the SDK formats it as `MCP error <code>: <message>`). -/
def McpErr.jsMessage (e : McpErr) : String :=
  "MCP error " ++ e.code.render ++ ": " ++ e.message

/-- The structured result `executeOperation` builds per operation. -/
inductive PgResult
  | selectR (rowCount : Nat) (rows : List Row)
  | countR (rowCount : Nat) (result : Nat)
  | existsR (rowCount : Nat) (result : Bool)
deriving DecidableEq

/-- The validation error message of the service-side executor. -/
def pgValidationMsg : String :=
  "Query must be a SELECT statement or CTE (WITH clause)"

/-- `PostgresMcpService.executeOperation(operation, query, parameters,
{limit})`.  The underlying connection (`this.db.query`, reached through
`this.executeQuery` with no extra options) is the oracle `db`; the second
component of the result is the trace of SQL texts actually handed to that
connection.  Prepared-statement parameters are passed through unchanged and
are elided from the embedding. -/
def executeOperation (db : String → List Row) (operation query : String)
    (limit : Option Nat) : Except McpErr PgResult × List String :=
  let trimmedQuery := jsToLower (jsTrim query)
  if !strStartsWith trimmedQuery "select" && !strStartsWith trimmedQuery "with" then
    (.error ⟨.invalidParams, pgValidationMsg⟩, [])
  else
    let finalQuery :=
      if jsTruthyNat limit && !strIncludes trimmedQuery "limit" then
        query ++ " LIMIT " ++ toString (limit.getD 0)
      else query
    if operation == "select" then
      let rows := db finalQuery
      (.ok (.selectR rows.length rows), [finalQuery])
    else if operation == "count" then
      let countQuery := "SELECT COUNT(*) as total FROM (" ++ query ++ ") as subquery"
      let countResult := db countQuery
      (.ok (.countR 1 ((countResult.head?.bind Row.total).getD 0)), [countQuery])
    else if operation == "exists" then
      let existsQuery := "SELECT EXISTS (" ++ query ++ ") as exists"
      let existsResult := db existsQuery
      (.ok (.existsR 1 ((existsResult.head?.bind Row.existsField).getD false)), [existsQuery])
    else
      (.error ⟨.invalidParams, "Unsupported operation: " ++ operation⟩, [])

/-- One content block of an MCP tool response. -/
structure ContentItem where
  type : String
  text : String
deriving DecidableEq

/-- The value every registered tool handler returns. -/
structure ToolResult where
  content : List ContentItem
deriving DecidableEq

/-- The zod-validated `operation` enum of the `pg_execute_query` tool. -/
inductive PgOp
  | select
  | count
  | existsOp
deriving DecidableEq

/-- The wire name of a `pg_execute_query` operation. -/
def PgOp.render : PgOp → String
  | .select => "select"
  | .count => "count"
  | .existsOp => "exists"

/-- The `pg_execute_query` handler of the MCP server (index.js).  `db` is the
underlying connection, which may fail per call (`Except.error` carries the
driver's `error.message`); `postgresService.executeQuery` wraps such a
failure into `McpError(InternalError, "Query execution failed: …")` — that
service module does import `McpError` — and the handler's own `try/catch`
converts any thrown error into a one-block textual result.  The handler's
own validation line `throw new McpError(ErrorCode.InvalidParams, …)`
references identifiers that index.js never imports, so at run time that
branch raises `ReferenceError: McpError is not defined`; the same
`try/catch` catches it and renders its `error.message` text.  The second
component is again the trace of SQL texts that reached the connection (a
query that was issued and failed did reach it). -/
def pgExecuteQueryHandler (db : String → Except String (List Row)) (op : PgOp)
    (query : String) (limit : Option Nat) : ToolResult × List String :=
  let errResult := fun (msg : String) =>
    ToolResult.mk [⟨"text", "Ошибка выполнения " ++ op.render ++ " запроса: " ++ msg⟩]
  let trimmedQuery := jsToLower (jsTrim query)
  if !strStartsWith trimmedQuery "select" && !strStartsWith trimmedQuery "with" then
    (errResult "McpError is not defined", [])
  else
    let finalQuery :=
      if jsTruthyNat limit && !strIncludes trimmedQuery "limit" then
        query ++ " LIMIT " ++ toString (limit.getD 0)
      else query
    match op with
    | .select =>
      match db finalQuery with
      | .error e =>
        (errResult (McpErr.jsMessage ⟨.internalError, "Query execution failed: " ++ e⟩),
         [finalQuery])
      | .ok rows =>
        (⟨[⟨"text", "Запрос выполнен успешно. Получено " ++ toString rows.length ++
            " строк.\n\nРезультаты:\n" ++ toString rows.length⟩]⟩, [finalQuery])
    | .count =>
      let countQuery := "SELECT COUNT(*) as total FROM (" ++ query ++ ") as subquery"
      match db countQuery with
      | .error e =>
        (errResult (McpErr.jsMessage ⟨.internalError, "Query execution failed: " ++ e⟩),
         [countQuery])
      | .ok rows =>
        (⟨[⟨"text", "Запрос подсчета выполнен успешно. Всего строк: " ++
            toString ((rows.head?.bind Row.total).getD 0)⟩]⟩, [countQuery])
    | .existsOp =>
      let existsQuery := "SELECT EXISTS (" ++ query ++ ") as exists"
      match db existsQuery with
      | .error e =>
        (errResult (McpErr.jsMessage ⟨.internalError, "Query execution failed: " ++ e⟩),
         [existsQuery])
      | .ok rows =>
        (⟨[⟨"text", "Запрос существования выполнен успешно. Результат: " ++
            (if (rows.head?.bind Row.existsField).getD false then "СУЩЕСТВУЕТ"
             else "НЕ СУЩЕСТВУЕТ")⟩]⟩, [existsQuery])

/-- The `findDocuments` handler of the MCP server: one textual block on
success (count plus `JSON.stringify` of the documents, the external
serialiser being the parameter `stringify`), one textual block on any
executor failure. -/
def findDocumentsHandler (stringify : List Row → String)
    (collection : String) (outcome : Except String (List Row)) : ToolResult :=
  match outcome with
  | .ok results =>
    ⟨[⟨"text", "Найдено " ++ toString results.length ++ " документов в коллекции '" ++
        collection ++ "'\n" ++ stringify results⟩]⟩
  | .error e =>
    ⟨[⟨"text", "Ошибка поиска документов: " ++ e⟩]⟩

/- ================================================================
   §5  Relationship discovery engine
       (src/mcp-mongo-project/src/services/mongo-mcp-service.js
        verifyRelationship, generateRelationshipSummary,
        findConnectedGroup)
   ================================================================ -/

/-- A sampled document, reduced to what `verifyRelationship` reads of it:
field access followed by `.toString()`.  A field absent from the list stands
for a JS `null`/`undefined` value (filtered out by `val != null`). -/
abbrev SampleDoc : Type := List (String × String)

/-- `doc[field]`, `null`-aware. -/
def docField (d : SampleDoc) (field : String) : Option String :=
  (d.find? (fun e => e.1 == field)).map (fun e => e.2)

/-- The record `verifyRelationship` returns.  In the empty-sample and error
branches the JS object carries no `totalChecked` property, hence the
`Option`. -/
structure VerifyResult where
  isValid : Bool
  strength : ℚ
  matchCount : Nat
  totalChecked : Option Nat
deriving DecidableEq

/-- JS `Math.round` on the non-negative rationals this code feeds it. -/
def jsRound (x : ℚ) : ℤ := ⌊x + 1/2⌋

/-- The `fromValues` / `toValues` extraction (non-null stringified field
values of the sampled documents). -/
def valuesOf (docs : List SampleDoc) (field : String) : List String :=
  docs.filterMap (fun d => docField d field)

/-- The `matches` count: how many extracted source values occur among the
extracted target values. -/
def matchCountOf (fromDocs toDocs : List SampleDoc) (ff tf : String) : Nat :=
  ((valuesOf fromDocs ff).filter (fun v => (valuesOf toDocs tf).contains v)).length

/-- The unrounded `strength` variable:
`fromValues.length > 0 ? matches / fromValues.length : 0`. -/
def rawStrength (fromDocs toDocs : List SampleDoc) (ff tf : String) : ℚ :=
  if 0 < (valuesOf fromDocs ff).length then
    (matchCountOf fromDocs toDocs ff tf : ℚ) / ((valuesOf fromDocs ff).length : ℚ)
  else 0

/-- `verifyRelationship(fromCollection, fromField, toCollection, toField,
sampleSize)`, parameterised by the two bounded samples the embedded `find`
calls would return: reports the rounded-to-hundredths strength, validity of
the unrounded ratio against 0.1, the match count, and the number of source
values checked; empty samples short-circuit to an invalid result. -/
def verifyRelationship (fromDocs toDocs : List SampleDoc)
    (fromField toField : String) : VerifyResult :=
  if fromDocs.length = 0 ∨ toDocs.length = 0 then
    ⟨false, 0, 0, none⟩
  else
    ⟨decide ((1 : ℚ)/10 < rawStrength fromDocs toDocs fromField toField),
     (jsRound (rawStrength fromDocs toDocs fromField toField * 100) : ℚ) / 100,
     matchCountOf fromDocs toDocs fromField toField,
     some (valuesOf fromDocs fromField).length⟩

/-- One accepted relationship edge (`{from, fromField, to, toField,
strength, …}`), reduced to the fields the summary reads. -/
structure RelEdge where
  fromC : String
  toC : String
  strength : ℚ
deriving DecidableEq

/-- One element of the list passed to `generateRelationshipSummary`: the
per-pair record with its `relationships` array. -/
structure RelPair where
  relationships : List RelEdge
deriving DecidableEq

/-- The summary record. -/
structure RelSummary where
  totalRelationships : Nat
  strongRelationships : Nat
  weakRelationships : Nat
  collectionGroups : List (List String)
deriving DecidableEq

/-- `if (!collectionConnections[k]) collectionConnections[k] = new Set()`:
insertion-ordered adjacency map. -/
def ensureKey (adj : List (String × List String)) (k : String) :
    List (String × List String) :=
  if adj.any (fun e => e.1 == k) then adj else adj ++ [(k, [])]

/-- `collectionConnections[k].add(v)` (a JS `Set` keeps insertion order and
ignores duplicates). -/
def addToSet (adj : List (String × List String)) (k v : String) :
    List (String × List String) :=
  adj.map (fun e =>
    if e.1 == k then (e.1, if e.2.contains v then e.2 else e.2 ++ [v]) else e)

/-- Record one edge in both directions. -/
def addEdge (adj : List (String × List String)) (r : RelEdge) :
    List (String × List String) :=
  addToSet (addToSet (ensureKey (ensureKey adj r.fromC) r.toC) r.fromC r.toC)
    r.toC r.fromC

/-- The `collectionConnections` object after the `forEach` over all pairs
and their edges. -/
def buildConnections (pairs : List RelPair) : List (String × List String) :=
  pairs.foldl (fun adj p => p.relationships.foldl addEdge adj) []

/-- The neighbour set of `current` (`connections[current]`, `[]` if the key
is absent — the JS code guards with `if (connections[current])`). -/
def neighborsOf (adj : List (String × List String)) (k : String) : List String :=
  ((adj.find? (fun e => e.1 == k)).map (fun e => e.2)).getD []

/-- The queue/visited loop of `findConnectedGroup`, with explicit fuel (one
unit per loop iteration; `bfsFuel` below is provably enough for the call
sites used here, and every property proved of the traversal holds for any
fuel).  Returns the group in push order together with the updated shared
`visited` list. -/
def bfsGroup (adj : List (String × List String)) :
    Nat → List String → List String → List String × List String
  | 0, _, visited => ([], visited)
  | _ + 1, [], visited => ([], visited)
  | fuel + 1, current :: queue, visited =>
    if visited.contains current then bfsGroup adj fuel queue visited
    else
      let visited' := visited ++ [current]
      let queue' := queue ++ (neighborsOf adj current).filter
        (fun c => !visited'.contains c)
      let r := bfsGroup adj fuel queue' visited'
      (current :: r.1, r.2)

/-- Fuel bound for `bfsGroup`: every iteration pops one queue element, and
at most `1 + Σ |adjacency lists|` elements are ever pushed. -/
def bfsFuel (adj : List (String × List String)) : Nat :=
  1 + (adj.map (fun e => e.2.length)).sum

/-- `findConnectedGroup(startCollection, connections, visited)`. -/
def findConnectedGroup (adj : List (String × List String)) (start : String)
    (visited : List String) : List String × List String :=
  bfsGroup adj (bfsFuel adj) [start] visited

/-- The `Object.keys(collectionConnections).forEach` grouping pass: shared
`visited`, keeping only groups with more than one member. -/
def buildGroups (adj : List (String × List String)) : List (List String) :=
  (adj.map (fun e => e.1)).foldl
    (fun acc k =>
      if acc.2.contains k then acc
      else
        let r := findConnectedGroup adj k acc.2
        (if 1 < r.1.length then acc.1 ++ [r.1] else acc.1, r.2))
    (([], []) : List (List String) × List String) |>.1

/-- `generateRelationshipSummary(relationships)`. -/
def generateRelationshipSummary (pairs : List RelPair) : RelSummary :=
  let edges := pairs.foldl (fun acc p => acc ++ p.relationships) []
  { totalRelationships := pairs.length
    strongRelationships := (edges.filter (fun r => decide ((1:ℚ)/2 ≤ r.strength))).length
    weakRelationships := (edges.filter (fun r => !decide ((1:ℚ)/2 ≤ r.strength))).length
    collectionGroups := buildGroups (buildConnections pairs) }

/-- The endpoints (source and target collections) of all edges of a pair
list. -/
def relEndpoints (pairs : List RelPair) : List String :=
  pairs.foldl (fun acc p =>
    acc ++ p.relationships.foldl (fun a r => a ++ [r.fromC, r.toC]) []) []

/- ================================================================
   §6  ObjectId coercion
       (src/mcp-mongo-project/src/services/mongo-mcp-service.js
        processObjectIds)
   ================================================================ -/

/-- A JSON-like query value.  `oid` is the store's native identifier type
(`ObjectId`); it holds the canonical (lower-case) hexadecimal rendering of
its 12 bytes, which is what `toString`/`toHexString` produce.  Queries
arriving from the tool layer are JSON-derived and therefore contain no
`oid` leaves. -/
inductive Value
  | str (s : String)
  | num (n : Int)
  | boolean (b : Bool)
  | nul
  | oid (hex : String)
  | arr (elems : List Value)
  | obj (fields : List (String × Value))

/-- `isValidObjectId`: a string of exactly 24 characters, all hexadecimal
digits (the `/^[0-9a-fA-F]{24}$/` test). -/
def isValidObjectId (s : String) : Bool :=
  s.length == 24 && s.toList.all (fun c =>
    c.isDigit || ('a' ≤ c && c ≤ 'f') || ('A' ≤ c && c ≤ 'F'))

/-- The textual rendering of a native identifier (`ObjectId.toString()`):
always lower-case hexadecimal. -/
def oidToString (hex : String) : String := hex

/-- `convertToObjectId(value)`: pass an existing `ObjectId` through
(`value instanceof ObjectId`), convert a valid 24-hex-character string
(`new ObjectId(value)` — which normalises the stored bytes, so the
canonical rendering is the lower-cased input, and never throws on a string
the validity test accepted), return everything else unchanged
(`isValidObjectId` is false for non-strings). -/
def convertToObjectId : Value → Value
  | .oid h => .oid h
  | .str s => if isValidObjectId s then .oid (jsToLower s) else .str s
  | v => v

mutual
/-- `processValue(value)` (mutually with its traversals of arrays and
objects): convert string leaves, map over arrays — where the JS code
special-cases string items before recursing — and rebuild objects key by
key.  A native identifier never occurs in the JSON-derived inputs this is
applied to; it is passed through unchanged here (the JS object branch would
decompose it, but `ObjectId` instances expose no enumerable own
properties, so that path is equally content-free). -/
def processValue : Value → Value
  | .str s => convertToObjectId (.str s)
  | .arr items => .arr (processItems items)
  | .obj fields => .obj (processFields fields)
  | v => v
/-- `value.map(item => typeof item === 'string' ? convertToObjectId(item)
: processValue(item))`. -/
def processItems : List Value → List Value
  | [] => []
  | .str s :: rest => convertToObjectId (.str s) :: processItems rest
  | v :: rest => processValue v :: processItems rest
/-- `Object.keys(value).forEach(subKey => processedObj[subKey] =
processValue(value[subKey]))`. -/
def processFields : List (String × Value) → List (String × Value)
  | [] => []
  | (k, v) :: rest => (k, processValue v) :: processFields rest
end

/-- Whether a top-level key names an identifier field:
`key === '_id' || key.endsWith('_id') || key.endsWith('Id')`. -/
def idKey (k : String) : Bool :=
  k == "_id" || strEndsWith k "_id" || strEndsWith k "Id"

/-- `processObjectIds(query)`: for each top-level field, process its value
when the key names an identifier field; otherwise, when the value is a JS
object (plain object, array or — vacuously here — a native identifier),
process it too, whether or not the key is an operator key (`$`-prefixed) —
both branches of the JS conditional invoke the same `processValue`.
Primitive values under non-identifier keys pass through unchanged. -/
def processObjectIds (query : List (String × Value)) : List (String × Value) :=
  query.map (fun e =>
    if idKey e.1 then (e.1, processValue e.2)
    else
      match e.2 with
      | .obj fields => (e.1, processValue (.obj fields))
      | .arr items => (e.1, processValue (.arr items))
      | .oid h => (e.1, processValue (.oid h))
      | v => (e.1, v))

/- ================================================================
   §7  Concrete fixtures used by counterexamples and witnesses
   ================================================================ -/

/-- Oracle that never terminates on its own: every response is a tool call. -/
def toolOnlyOracle : Nat → AiResponse :=
  fun _ => .toolCall "tool" "args" "result"

/-- A canonical lower-case 24-character hexadecimal identifier string. -/
def hex24 : String := "507f1f77bcf86cd799439011"

/-- The same identifier with upper-case hex digits (still accepted by
`isValidObjectId`). -/
def upHex : String := "507F1F77BCF86CD799439011"

/-- Source-side sample for the relationship-strength counterexample: three
documents whose `userId` fields are `a`, `b`, `c`. -/
def c5From : List SampleDoc :=
  [[("userId", "a")], [("userId", "b")], [("userId", "c")]]

/-- Target-side sample: one document with `_id` equal to `a`. -/
def c5To : List SampleDoc := [[("_id", "a")]]

/-- A priming user message. -/
def sysU : GMsg := ⟨"user", [⟨some "system prompt", none, none⟩]⟩

/-- The priming acknowledgment message. -/
def sysM : GMsg := ⟨"model", [⟨some "ack", none, none⟩]⟩

/-- An assistant tool-invocation message. -/
def callM : GMsg := ⟨"model", [⟨none, some "findDocuments", none⟩]⟩

/-- The matching tool-result message. -/
def respM : GMsg := ⟨"user", [⟨none, none, some "findDocuments"⟩]⟩

/-- A plain conversational filler message. -/
def fillerU : GMsg := ⟨"user", [⟨some "m", none, none⟩]⟩

/-- A 26-message history whose only tool-invocation/tool-result pair sits at
indices 2 and 3, right at the front cut boundary of the count-based trim. -/
def cex6 : List GMsg := [sysU, sysM, callM, respM] ++ List.replicate 22 fillerU

/-- A 26-message history with no tool calls at all (trivially well paired). -/
def wp26 : List GMsg := [sysU, sysM] ++ List.replicate 24 fillerU

/-- A message whose text is the single word `a` (one approximate token). -/
def msgA : GMsg := ⟨"user", [⟨some "a", none, none⟩]⟩

/-- A history of 262145 one-token messages: its approximate token count
exceeds `MAX_TOKENS` by one. -/
def bigH : List GMsg := List.replicate 262145 msgA

/-- A single accepted relationship pair used as a summary witness. -/
def samplePairs : List RelPair :=
  [⟨[⟨"defects", "equipments", 1⟩]⟩]

/-- Decidable form of the pairing invariant: no index of the history is an
orphaned tool invocation. -/
def wellPairedB (h : List GMsg) : Bool :=
  (List.range h.length).all (fun i => !isOrphanAt h i)

/-- Decidable form of "the two priming messages contain no tool
invocation". -/
def noPrimingCall (h : List GMsg) : Bool :=
  (h.take 2).all (fun m => !(m.role == "model" && hasFunctionCall m))

/-- All neighbour entries of an adjacency map, concatenated. -/
def adjValues (adj : List (String × List String)) : List String :=
  (adj.map (fun e => e.2)).flatten

/-- Every key and neighbour of `adj` belongs to `E`. -/
def adjInside (E : List String) (adj : List (String × List String)) : Prop :=
  ∀ e ∈ adj, e.1 ∈ E ∧ ∀ v ∈ e.2, v ∈ E

/- ================================================================
   §8  Theorems: orchestration loop (claim C1)
   ================================================================ -/

/-- The loop makes at most `fuel` further invocations. -/
theorem chatLoop_count_le (f : Nat → AiResponse) :
    ∀ fuel c, (chatLoop f fuel c).2 ≤ c + fuel := by
  intro fuel
  induction fuel with
  | zero => intro c; simp [chatLoop]
  | succ k ih =>
    intro c
    simp only [chatLoop]
    cases f c with
    | error t => dsimp only; omega
    | text t => dsimp only; omega
    | toolCall n a r =>
      dsimp only
      have := ih (c + 1)
      omega

/-- If every response before the last budgeted one is a tool call, the loop
runs its full budget. -/
theorem chatLoop_full (f : Nat → AiResponse) :
    ∀ fuel c, 1 ≤ fuel → (∀ j, j < fuel - 1 → (f (c + j)).isToolCall = true) →
      (chatLoop f fuel c).2 = c + fuel := by
  intro fuel
  induction fuel with
  | zero => omega
  | succ k ih =>
    intro c _ hall
    simp only [chatLoop]
    cases hk : k with
    | zero =>
      cases f c with
      | error t => dsimp only
      | text t => dsimp only
      | toolCall n a r => subst hk; simp [chatLoop]
    | succ k' =>
      have h0 : (f c).isToolCall = true := by
        have := hall 0 (by omega)
        simpa using this
      cases hf : f c with
      | error t => rw [hf] at h0; simp [AiResponse.isToolCall] at h0
      | text t => rw [hf] at h0; simp [AiResponse.isToolCall] at h0
      | toolCall n a r =>
        subst hk
        dsimp only
        have := ih (c + 1) (by omega) (fun j hj => by
          have := hall (j + 1) (by omega)
          rwa [show c + 1 + j = c + (j + 1) by omega])
        rw [this]
        omega

/-- If the first `i` responses are tool calls and the `(i+1)`-st is
terminal, the loop stops there with that terminal text. -/
theorem chatLoop_terminal (f : Nat → AiResponse) :
    ∀ i fuel c, i < fuel → (∀ j, j < i → (f (c + j)).isToolCall = true) →
      (f (c + i)).isToolCall = false →
      chatLoop f fuel c = ((f (c + i)).respText, c + i + 1) := by
  intro i
  induction i with
  | zero =>
    intro fuel c hfuel _ hterm
    cases fuel with
    | zero => omega
    | succ k =>
      simp only [chatLoop]
      simp only [Nat.add_zero] at hterm ⊢
      cases hf : f c with
      | error t => simp [hf, AiResponse.respText]
      | text t => simp [hf, AiResponse.respText]
      | toolCall n a r => rw [hf] at hterm; simp [AiResponse.isToolCall] at hterm
  | succ i ih =>
    intro fuel c hfuel hall hterm
    cases fuel with
    | zero => omega
    | succ k =>
      simp only [chatLoop]
      have h0 : (f c).isToolCall = true := by
        have := hall 0 (by omega)
        simpa using this
      cases hf : f c with
      | error t => rw [hf] at h0; simp [AiResponse.isToolCall] at h0
      | text t => rw [hf] at h0; simp [AiResponse.isToolCall] at h0
      | toolCall n a r =>
        dsimp only
        have := ih k (c + 1) (by omega)
          (fun j hj => by
            have := hall (j + 1) (by omega)
            rwa [show c + 1 + j = c + (j + 1) by omega])
          (by rwa [show c + 1 + i = c + (i + 1) by omega])
        rw [this]
        rw [show c + 1 + i = c + (i + 1) by omega]

/-- C1 (corrected): the claim as frozen is false on the code.  With an
oracle that answers fourteen tool calls and then a final text, the turn
reaches a terminal state within the budget (the 15th and last permitted
invocation), yet the emitted response is the fixed advisory text, not the
terminal result: `if (iterationCount >= maxIterations)` overwrites
`finalResponse` whenever all fifteen iterations were used, even when the
fifteenth produced the terminal text. -/
theorem c1_counterexample :
    (runTurn cexOracle).2 ≤ maxIterations ∧
    cexOracle 14 = .text "done" ∧
    ((List.range 14).all (fun j => (cexOracle j).isToolCall)) = true ∧
    turnFinal clientAdvisory cexOracle = clientAdvisory ∧
    ¬ turnFinal clientAdvisory cexOracle = "done" := by
  refine ⟨by decide, by decide, by decide, by decide, by decide⟩

/-- C1 (amended): per turn the oracle is invoked at most 15 times; the
advisory text is emitted exactly when the first 14 responses are all tool
calls (so the iteration count reaches the maximum) — in that case it is
emitted even if the 15th response was terminal; a terminal response within
the first 14 invocations ends the turn with that terminal result. -/
theorem c1_amended (f : Nat → AiResponse) (advisory : String) :
    (runTurn f).2 ≤ maxIterations ∧
    ((∀ j, j < maxIterations - 1 → (f j).isToolCall = true) →
      (runTurn f).2 = maxIterations ∧ turnFinal advisory f = advisory) ∧
    (∀ i, i < maxIterations - 1 → (∀ j, j < i → (f j).isToolCall = true) →
      (f i).isToolCall = false →
      (runTurn f).2 = i + 1 ∧ turnFinal advisory f = (f i).respText) ∧
    ((runTurn f).2 = maxIterations →
      ∀ j, j < maxIterations - 1 → (f j).isToolCall = true) := by
  refine ⟨?_, ?_, ?_, ?_⟩
  · have := chatLoop_count_le f maxIterations 0
    simpa [runTurn] using this
  · intro hall
    have hcnt : (runTurn f).2 = maxIterations := by
      have := chatLoop_full f maxIterations 0 (by decide)
        (fun j hj => by simpa using hall j hj)
      simpa [runTurn] using this
    refine ⟨hcnt, ?_⟩
    simp [turnFinal, hcnt]
  · intro i hi hall hterm
    have := chatLoop_terminal f i maxIterations 0 (by omega)
      (fun j hj => by simpa using hall j hj) (by simpa using hterm)
    have hrun : runTurn f = ((f i).respText, i + 1) := by
      simpa [runTurn] using this
    refine ⟨by rw [hrun], ?_⟩
    rw [turnFinal, hrun]
    have : ¬ maxIterations ≤ i + 1 := by
      simp only [maxIterations] at hi ⊢
      omega
    simp [this]
  · intro hcnt j hj
    by_contra hbad
    have hex : ∃ n, (f n).isToolCall = false := ⟨j, by simpa using hbad⟩
    set i0 := Nat.find hex with hi0
    have hspec : (f i0).isToolCall = false := Nat.find_spec hex
    have hle : i0 ≤ j := Nat.find_min' hex (by simpa using hbad)
    have hallBefore : ∀ k, k < i0 → (f k).isToolCall = true := by
      intro k hk
      have := Nat.find_min hex hk
      simpa using this
    have := chatLoop_terminal f i0 maxIterations 0
      (by simp only [maxIterations] at hj ⊢; omega)
      (fun k hk => by simpa using hallBefore k hk) (by simpa using hspec)
    have hrun : (runTurn f).2 = i0 + 1 := by
      simp [runTurn, this]
    rw [hrun] at hcnt
    simp only [maxIterations] at hcnt hj
    omega

/-- Closed witness for C1 (amended), at an oracle that always requests a
tool call: the budget is exhausted and the advisory is emitted. -/
theorem c1_amended_witness :
    (runTurn toolOnlyOracle).2 = maxIterations ∧
    turnFinal clientAdvisory toolOnlyOracle = clientAdvisory :=
  (c1_amended toolOnlyOracle clientAdvisory).2.1 (fun _ _ => rfl)

/- ================================================================
   §9  Theorems: relational executor (claims C2, C9) and tool
       handlers (claim C3)
   ================================================================ -/

/-- C2 (confirmed): for each of the three operations, a query whose trimmed
lower-cased text starts with neither `select` nor `with` makes the
service-side executor fail with the invalid-parameters error, and makes the
handler return a one-block textual error result (whose text comes from the
`ReferenceError` its unimported `McpError` reference raises); in both cases
the trace of SQL texts handed to the underlying connection is empty — the
query never reaches it. -/
theorem c2_rejects_non_select (db : String → List Row)
    (db' : String → Except String (List Row)) (op : String) (opE : PgOp)
    (q : String) (lim : Option Nat)
    (_hop : op = "select" ∨ op = "count" ∨ op = "exists")
    (h1 : strStartsWith (jsToLower (jsTrim q)) "select" = false)
    (h2 : strStartsWith (jsToLower (jsTrim q)) "with" = false) :
    executeOperation db op q lim = (.error ⟨.invalidParams, pgValidationMsg⟩, []) ∧
    (pgExecuteQueryHandler db' opE q lim).2 = [] ∧
    (pgExecuteQueryHandler db' opE q lim).1 =
      ⟨[⟨"text", "Ошибка выполнения " ++ opE.render ++
          " запроса: McpError is not defined"⟩]⟩ := by
  refine ⟨?_, ?_, ?_⟩
  · rw [executeOperation]
    simp [h1, h2]
  · rw [pgExecuteQueryHandler]
    simp [h1, h2]
  · rw [pgExecuteQueryHandler]
    simp only [h1, h2, Bool.not_false, Bool.and_self, if_true]
    refine congrArg ToolResult.mk ?_
    refine congrArg (fun t => [ContentItem.mk "text" t]) ?_
    rw [String.append_assoc]
    exact congrArg (fun t => ("Ошибка выполнения " ++ opE.render) ++ t) (by decide)

/-- Closed witness for C2 at the mutating statement `DROP TABLE users`. -/
theorem c2_witness :
    (("select" : String) = "select" ∨ ("select" : String) = "count" ∨
      ("select" : String) = "exists") ∧
    strStartsWith (jsToLower (jsTrim "DROP TABLE users")) "select" = false ∧
    strStartsWith (jsToLower (jsTrim "DROP TABLE users")) "with" = false ∧
    executeOperation (fun _ => []) "select" "DROP TABLE users" none =
      (.error ⟨.invalidParams, pgValidationMsg⟩, []) :=
  ⟨Or.inl rfl, by decide, by decide,
    (c2_rejects_non_select (fun _ => []) (fun _ => .ok []) "select" .select
      "DROP TABLE users" none (Or.inl rfl) (by decide) (by decide)).1⟩

/-- C9 (confirmed): under a valid query, `select` runs the query as-is —
with ` LIMIT n` appended exactly when the caller supplied a (truthy) limit
and the trimmed lower-cased query does not contain `limit` — `count` wraps
the original (never the limit-augmented) query as
`SELECT COUNT(*) … FROM (query) as subquery` and returns the first row's
total (defaulting to 0), and `exists` wraps it as `SELECT EXISTS (query)`
and returns the first row's boolean (defaulting to false); each call hands
exactly that one SQL text to the connection. -/
theorem c9_operation_semantics (db : String → List Row) (q : String) (n : Nat)
    (hv : strStartsWith (jsToLower (jsTrim q)) "select" = true ∨
          strStartsWith (jsToLower (jsTrim q)) "with" = true) :
    (executeOperation db "select" q none =
      (.ok (.selectR (db q).length (db q)), [q])) ∧
    (executeOperation db "select" q (some 0) =
      (.ok (.selectR (db q).length (db q)), [q])) ∧
    (n ≠ 0 → strIncludes (jsToLower (jsTrim q)) "limit" = false →
      executeOperation db "select" q (some n) =
        (.ok (.selectR (db (q ++ " LIMIT " ++ toString n)).length
          (db (q ++ " LIMIT " ++ toString n))), [q ++ " LIMIT " ++ toString n])) ∧
    (strIncludes (jsToLower (jsTrim q)) "limit" = true →
      executeOperation db "select" q (some n) =
        (.ok (.selectR (db q).length (db q)), [q])) ∧
    (∀ lim : Option Nat, executeOperation db "count" q lim =
      (.ok (.countR 1 (((db ("SELECT COUNT(*) as total FROM (" ++ q ++ ") as subquery")).head?.bind
          Row.total).getD 0)),
        ["SELECT COUNT(*) as total FROM (" ++ q ++ ") as subquery"])) ∧
    (∀ lim : Option Nat, executeOperation db "exists" q lim =
      (.ok (.existsR 1 (((db ("SELECT EXISTS (" ++ q ++ ") as exists")).head?.bind
          Row.existsField).getD false)),
        ["SELECT EXISTS (" ++ q ++ ") as exists"])) := by
  have hval : (!strStartsWith (jsToLower (jsTrim q)) "select" &&
      !strStartsWith (jsToLower (jsTrim q)) "with") = false := by
    cases hv with
    | inl h => simp [h]
    | inr h => simp [h]
  refine ⟨?_, ?_, ?_, ?_, ?_, ?_⟩
  · rw [executeOperation]; simp [hval, jsTruthyNat]
  · rw [executeOperation]; simp [hval, jsTruthyNat]
  · intro hn hfree
    rw [executeOperation]
    simp [hval, jsTruthyNat, hn, hfree]
  · intro hhas
    rw [executeOperation]
    simp [hval, jsTruthyNat, hhas]
  · intro lim
    rw [executeOperation]
    simp [hval]
  · intro lim
    rw [executeOperation]
    simp [hval]

/-- Closed witness for C9 at `select * from t` with limit 5. -/
theorem c9_witness :
    strStartsWith (jsToLower (jsTrim "select * from t")) "select" = true ∧
    executeOperation (fun _ => []) "select" "select * from t" (some 5) =
      (.ok (.selectR 0 []), ["select * from t LIMIT 5"]) := by
  have hv : strStartsWith (jsToLower (jsTrim "select * from t")) "select" = true := by
    decide
  refine ⟨hv, ?_⟩
  have := (c9_operation_semantics (fun _ => []) "select * from t" 5
    (Or.inl hv)).2.2.1 (by decide) (by decide)
  simpa using this

/-- C3 (confirmed): the `pg_execute_query` and `findDocuments` handlers are
total functions into `ToolResult` — every invocation, including every
executor failure, yields exactly one result, namely a single `text` content
block; no exception escapes the tool layer. -/
theorem c3_handlers_total (db : String → Except String (List Row)) (op : PgOp)
    (q : String) (lim : Option Nat) (stringify : List Row → String)
    (coll : String) (outcome : Except String (List Row)) :
    ((pgExecuteQueryHandler db op q lim).1.content.length = 1 ∧
      ∀ c ∈ (pgExecuteQueryHandler db op q lim).1.content, c.type = "text") ∧
    ((findDocumentsHandler stringify coll outcome).content.length = 1 ∧
      ∀ c ∈ (findDocumentsHandler stringify coll outcome).content, c.type = "text") := by
  constructor
  · rw [pgExecuteQueryHandler]
    cases hb : (!strStartsWith (jsToLower (jsTrim q)) "select" &&
        !strStartsWith (jsToLower (jsTrim q)) "with") with
    | true =>
      simp [hb]
    | false =>
      simp only [hb, Bool.false_eq_true, if_false]
      cases op with
      | select =>
        cases db (if jsTruthyNat lim && !strIncludes (jsToLower (jsTrim q)) "limit"
          then q ++ " LIMIT " ++ toString (lim.getD 0) else q) with
        | error e => simp
        | ok rows => simp
      | count =>
        cases db ("SELECT COUNT(*) as total FROM (" ++ q ++ ") as subquery") with
        | error e => simp
        | ok rows => simp
      | existsOp =>
        cases db ("SELECT EXISTS (" ++ q ++ ") as exists") with
        | error e => simp
        | ok rows => simp
  · cases outcome with
    | error e => simp [findDocumentsHandler]
    | ok results => simp [findDocumentsHandler]

/-- Closed witness for C3: a failing executor still produces exactly one
textual result block. -/
theorem c3_witness :
    (pgExecuteQueryHandler (fun _ => .error "relation does not exist") .select
        "select * from missing" none).1.content.length = 1 ∧
    (findDocumentsHandler (fun _ => "[]") "defects"
        (.error "boom")).content.length = 1 :=
  ⟨(c3_handlers_total (fun _ => .error "relation does not exist") .select
      "select * from missing" none (fun _ => "[]") "defects" (.error "boom")).1.1,
   (c3_handlers_total (fun _ => .error "relation does not exist") .select
      "select * from missing" none (fun _ => "[]") "defects" (.error "boom")).2.1⟩

/- ================================================================
   §10  Theorems: identifier coercion (claim C4)
   ================================================================ -/

/-- C4 (corrected): the claim as frozen is false on the code in two ways.
First, the "only when" direction fails: under the top-level field `profile`
— which is not `_id`, does not end in `_id`/`Id` and is not an operator key
— the nested leaf under the inner field `name` (equally non-identifier) is
still converted, because `processValue` recurses into every object-valued
field and converts every 24-hex-character string leaf regardless of the
enclosing field names.  Second, the round trip is not byte-for-byte: an
upper-case 24-hex string in an `_id` field converts, but renders back
lower-cased. -/
theorem c4_counterexample :
    idKey "profile" = false ∧ idKey "name" = false ∧
    strStartsWith "profile" "$" = false ∧ strStartsWith "name" "$" = false ∧
    processObjectIds [("profile", Value.obj [("name", Value.str hex24)])] =
      [("profile", Value.obj [("name", Value.oid hex24)])] ∧
    isValidObjectId upHex = true ∧
    processObjectIds [("_id", Value.str upHex)] =
      [("_id", Value.oid (jsToLower upHex))] ∧
    ¬ oidToString (jsToLower upHex) = upHex := by
  have h1 : isValidObjectId hex24 = true := by decide
  have h2 : jsToLower hex24 = hex24 := by decide
  have h3 : isValidObjectId upHex = true := by decide
  refine ⟨by decide, by decide, by decide, by decide, ?_, h3, ?_, by decide⟩
  · simp [processObjectIds, processValue, processFields, convertToObjectId, idKey, h1, h2]
  · simp [processObjectIds, processValue, convertToObjectId, idKey, h3]

/-- C4 (amended): a 24-hex-character string leaf is converted to the native
identifier type when its top-level field name is `_id` or ends in
`_id`/`Id`, and also — regardless of any inner field name — whenever it
sits inside a top-level field whose value is an object or array (operator
keys included, since both branches of the conditional process the value);
a top-level string under any other field name, and every non-hex or
wrong-length string anywhere, passes through unchanged; a converted value
renders back as the lower-cased form of the original string. -/
theorem c4_amended (k s : String) (fields : List (String × Value)) :
    (idKey k = true → processObjectIds [(k, Value.str s)] =
      [(k, if isValidObjectId s then Value.oid (jsToLower s) else Value.str s)]) ∧
    (idKey k = false → processObjectIds [(k, Value.str s)] = [(k, Value.str s)]) ∧
    (idKey k = false → processObjectIds [(k, Value.obj fields)] =
      [(k, Value.obj (processFields fields))]) ∧
    (processFields ((k, Value.str s) :: fields) =
      (k, if isValidObjectId s then Value.oid (jsToLower s) else Value.str s) ::
        processFields fields) ∧
    (isValidObjectId s = true →
      convertToObjectId (Value.str s) = Value.oid (jsToLower s) ∧
      oidToString (jsToLower s) = jsToLower s) ∧
    (isValidObjectId s = false → convertToObjectId (Value.str s) = Value.str s) := by
  refine ⟨?_, ?_, ?_, ?_, ?_, ?_⟩
  · intro hk
    simp [processObjectIds, processValue, convertToObjectId, hk]
  · intro hk
    simp [processObjectIds, hk]
  · intro hk
    simp [processObjectIds, processValue, hk]
  · simp [processFields, processValue, convertToObjectId]
  · intro hs
    exact ⟨by simp [convertToObjectId, hs], rfl⟩
  · intro hs
    simp [convertToObjectId, hs]

/-- Closed witness for C4 (amended) at the lower-case identifier `hex24`:
conversion under `_id` and exact (already lower-case) round trip. -/
theorem c4_amended_witness :
    idKey "_id" = true ∧ isValidObjectId hex24 = true ∧
    processObjectIds [("_id", Value.str hex24)] = [("_id", Value.oid hex24)] ∧
    oidToString (jsToLower hex24) = jsToLower hex24 := by
  have hk : idKey "_id" = true := by decide
  have hs : isValidObjectId hex24 = true := by decide
  have hl : jsToLower hex24 = hex24 := by decide
  refine ⟨hk, hs, ?_, ((c4_amended "_id" hex24 []).2.2.2.2.1 hs).2⟩
  have := (c4_amended "_id" hex24 []).1 hk
  rw [this, if_pos hs, hl]


/- ================================================================
   §11  Theorems: relationship verification (claim C5)
   ================================================================ -/

/-- On the interval [0, 100], `Math.round` stays in [0, 100]. -/
theorem jsRound_bounds (x : ℚ) (h0 : 0 ≤ x) (h1 : x ≤ 100) :
    0 ≤ jsRound x ∧ jsRound x ≤ 100 := by
  constructor
  · rw [jsRound]
    exact Int.le_floor.mpr (by push_cast; linarith)
  · rw [jsRound]
    have hle : (⌊x + 1/2⌋ : ℚ) ≤ x + 1/2 := Int.floor_le _
    have : ((⌊x + 1/2⌋ : ℤ) : ℚ) < 101 := by linarith
    have : (⌊x + 1/2⌋ : ℤ) < 101 := by exact_mod_cast this
    omega

/-- The unrounded ratio lies in [0, 1]. -/
theorem rawStrength_bounds (fromDocs toDocs : List SampleDoc) (ff tf : String) :
    0 ≤ rawStrength fromDocs toDocs ff tf ∧ rawStrength fromDocs toDocs ff tf ≤ 1 := by
  rw [rawStrength]
  by_cases h : 0 < (valuesOf fromDocs ff).length
  · rw [if_pos h]
    have hm : matchCountOf fromDocs toDocs ff tf ≤ (valuesOf fromDocs ff).length :=
      List.length_filter_le _ _
    have hpos : (0 : ℚ) < ((valuesOf fromDocs ff).length : ℚ) := by
      exact_mod_cast h
    constructor
    · positivity
    · rw [div_le_one hpos]
      exact_mod_cast hm
  · rw [if_neg h]
    norm_num

/-- C5 (corrected): the claim as frozen is false on the code.  With three
sampled source values `a`, `b`, `c` and the single sampled target
identifier `a`, the match ratio is 1/3, but the reported strength is
`Math.round((1/3)*100)/100 = 33/100 ≠ 1/3` — the code rounds the reported
strength to hundredths, so it does not equal matched/total. -/
theorem c5_counterexample :
    (verifyRelationship c5From c5To "userId" "_id").matchCount = 1 ∧
    (verifyRelationship c5From c5To "userId" "_id").totalChecked = some 3 ∧
    (verifyRelationship c5From c5To "userId" "_id").isValid = true ∧
    (verifyRelationship c5From c5To "userId" "_id").strength = 33 / 100 ∧
    ¬ (verifyRelationship c5From c5To "userId" "_id").strength =
      ((verifyRelationship c5From c5To "userId" "_id").matchCount : ℚ) /
        (((verifyRelationship c5From c5To "userId" "_id").totalChecked).getD 0 : ℚ) := by
  have hvals : valuesOf c5From "userId" = ["a", "b", "c"] := rfl
  have hm : matchCountOf c5From c5To "userId" "_id" = 1 := rfl
  have hne : ¬ (c5From.length = 0 ∨ c5To.length = 0) := by decide
  have hraw : rawStrength c5From c5To "userId" "_id" = 1 / 3 := by
    rw [rawStrength, hvals, hm]
    norm_num
  have hfl : jsRound ((1 : ℚ) / 3 * 100) = 33 := by
    rw [jsRound, show (1 : ℚ) / 3 * 100 + 1 / 2 = 203 / 6 by norm_num]
    rw [Int.floor_eq_iff]
    constructor <;> norm_num
  have hv : verifyRelationship c5From c5To "userId" "_id" =
      ⟨decide ((1 : ℚ)/10 < rawStrength c5From c5To "userId" "_id"),
       (jsRound (rawStrength c5From c5To "userId" "_id" * 100) : ℚ) / 100,
       matchCountOf c5From c5To "userId" "_id",
       some (valuesOf c5From "userId").length⟩ := by
    rw [verifyRelationship, if_neg hne]
  have hstrength : (verifyRelationship c5From c5To "userId" "_id").strength = 33 / 100 := by
    rw [hv]
    show (jsRound (rawStrength c5From c5To "userId" "_id" * 100) : ℚ) / 100 = 33 / 100
    rw [hraw, hfl]
    norm_num
  refine ⟨by rw [hv]; exact hm, ?_, ?_, hstrength, ?_⟩
  · rw [hv]
    show some (valuesOf c5From "userId").length = some 3
    rw [hvals]
    rfl
  · rw [hv]
    show decide ((1 : ℚ)/10 < rawStrength c5From c5To "userId" "_id") = true
    rw [hraw, decide_eq_true_iff]
    norm_num
  · rw [hstrength]
    rw [hv]
    show ¬ (33 : ℚ) / 100 =
      (matchCountOf c5From c5To "userId" "_id" : ℚ) /
        ((some (valuesOf c5From "userId").length).getD 0 : ℚ)
    rw [hm, hvals]
    norm_num

/-- C5 (amended): the reported strength always lies in [0,1]; on non-empty
samples the result carries the match count and total checked, its reported
strength equals the match ratio rounded to hundredths
(`Math.round(ratio*100)/100`), and it is reported valid exactly when the
unrounded ratio exceeds 0.1; when either sample is empty the pair is
reported invalid with strength 0 and no total. -/
theorem c5_amended (fromDocs toDocs : List SampleDoc) (ff tf : String) :
    0 ≤ (verifyRelationship fromDocs toDocs ff tf).strength ∧
    (verifyRelationship fromDocs toDocs ff tf).strength ≤ 1 ∧
    (¬ fromDocs = [] → ¬ toDocs = [] →
      (verifyRelationship fromDocs toDocs ff tf).matchCount =
          matchCountOf fromDocs toDocs ff tf ∧
      (verifyRelationship fromDocs toDocs ff tf).totalChecked =
          some (valuesOf fromDocs ff).length ∧
      (verifyRelationship fromDocs toDocs ff tf).strength =
          (jsRound (rawStrength fromDocs toDocs ff tf * 100) : ℚ) / 100 ∧
      ((verifyRelationship fromDocs toDocs ff tf).isValid = true ↔
          (1 : ℚ) / 10 < rawStrength fromDocs toDocs ff tf)) ∧
    ((fromDocs = [] ∨ toDocs = []) →
      verifyRelationship fromDocs toDocs ff tf = ⟨false, 0, 0, none⟩) := by
  have hb := rawStrength_bounds fromDocs toDocs ff tf
  have hy0 : 0 ≤ rawStrength fromDocs toDocs ff tf * 100 := by linarith [hb.1]
  have hy1 : rawStrength fromDocs toDocs ff tf * 100 ≤ 100 := by linarith [hb.2]
  have hr := jsRound_bounds _ hy0 hy1
  have hs0 : (0 : ℚ) ≤ (jsRound (rawStrength fromDocs toDocs ff tf * 100) : ℚ) / 100 := by
    have : (0 : ℚ) ≤ (jsRound (rawStrength fromDocs toDocs ff tf * 100) : ℚ) := by
      exact_mod_cast hr.1
    positivity
  have hs1 : (jsRound (rawStrength fromDocs toDocs ff tf * 100) : ℚ) / 100 ≤ 1 := by
    rw [div_le_one (by norm_num : (0:ℚ) < 100)]
    exact_mod_cast hr.2
  by_cases hemp : fromDocs.length = 0 ∨ toDocs.length = 0
  · have hv : verifyRelationship fromDocs toDocs ff tf = ⟨false, 0, 0, none⟩ := by
      rw [verifyRelationship, if_pos hemp]
    refine ⟨by rw [hv], by rw [hv]; norm_num, ?_, fun _ => hv⟩
    intro hf ht
    exact absurd hemp (by
      simp only [List.length_eq_zero]
      tauto)
  · have hv : verifyRelationship fromDocs toDocs ff tf =
        ⟨decide ((1 : ℚ)/10 < rawStrength fromDocs toDocs ff tf),
         (jsRound (rawStrength fromDocs toDocs ff tf * 100) : ℚ) / 100,
         matchCountOf fromDocs toDocs ff tf,
         some (valuesOf fromDocs ff).length⟩ := by
      rw [verifyRelationship, if_neg hemp]
    refine ⟨by rw [hv]; exact hs0, by rw [hv]; exact hs1, ?_, ?_⟩
    · intro _ _
      refine ⟨by rw [hv], by rw [hv], by rw [hv], ?_⟩
      rw [hv]
      simp
    · intro hcase
      exact absurd (by
        rcases hcase with h | h <;> simp [h] : fromDocs.length = 0 ∨ toDocs.length = 0) hemp

/-- Closed witness for C5 (amended) at the concrete samples of the
counterexample: non-empty samples, so the match count, rounding equation and
validity criterion all apply. -/
theorem c5_amended_witness :
    ¬ c5From = [] ∧ ¬ c5To = [] ∧
    ((verifyRelationship c5From c5To "userId" "_id").matchCount =
        matchCountOf c5From c5To "userId" "_id" ∧
     (verifyRelationship c5From c5To "userId" "_id").totalChecked =
        some (valuesOf c5From "userId").length ∧
     (verifyRelationship c5From c5To "userId" "_id").strength =
        (jsRound (rawStrength c5From c5To "userId" "_id" * 100) : ℚ) / 100 ∧
     ((verifyRelationship c5From c5To "userId" "_id").isValid = true ↔
        (1 : ℚ) / 10 < rawStrength c5From c5To "userId" "_id")) :=
  ⟨by decide, by decide,
    (c5_amended c5From c5To "userId" "_id").2.2.1 (by decide) (by decide)⟩

/- ================================================================
   §12  Theorems: trimming idempotence (claim C8) and supporting
        token-count lemmas
   ================================================================ -/

/-- Folding the token sum from an arbitrary accumulator. -/
theorem countTokens_foldl (l : List GMsg) :
    ∀ a, l.foldl (fun sum msg => sum + msgTokens msg) a = a + countTokens l := by
  induction l with
  | nil => intro a; simp [countTokens]
  | cons m rest ih =>
    intro a
    rw [countTokens]
    simp only [List.foldl_cons]
    rw [ih, ih (0 + msgTokens m)]
    omega

/-- Token counts add across concatenation. -/
theorem countTokens_append (a b : List GMsg) :
    countTokens (a ++ b) = countTokens a + countTokens b := by
  rw [countTokens, List.foldl_append, countTokens_foldl]
  rfl

/-- A singleton's token count. -/
theorem countTokens_singleton (m : GMsg) : countTokens [m] = msgTokens m := by
  rw [countTokens]
  simp

/-- When the count-based trim fires, the output fits the ceiling. -/
theorem trimChatHistory_length_le (h : List GMsg)
    (hf : MAX_HISTORY_LENGTH < h.length) :
    (trimChatHistory h).length ≤ MAX_HISTORY_LENGTH := by
  rw [trimChatHistory, if_pos hf]
  simp only [List.length_append, List.length_take, List.length_drop]
  simp only [MAX_HISTORY_LENGTH, PRESERVE_SYSTEM_MESSAGES] at *
  omega

/-- The accumulation loop collects nothing below index 2. -/
theorem collectRecent_low (h : List GMsg) (t i : Nat) (hi : i ≤ 1) :
    collectRecent h t i = [] := by
  match i, hi with
  | 0, _ => rfl
  | 1, _ => rfl

/-- Either the loop collected nothing, or what it collected (on top of the
running accumulator) stays within the budget. -/
theorem collectRecent_budget (h : List GMsg) :
    ∀ i t, collectRecent h t i = [] ∨
      t + countTokens (collectRecent h t i) ≤ MAX_TOKENS
  | 0, _ => Or.inl rfl
  | 1, _ => Or.inl rfl
  | i + 2, t => by
    by_cases hc : MAX_TOKENS < t + msgTokens (h.getD (i + 2) default)
    · left
      simp only [collectRecent]
      rw [if_pos hc]
    · right
      simp only [collectRecent]
      rw [if_neg hc]
      rcases collectRecent_budget h (i + 1) (t + msgTokens (h.getD (i + 2) default)) with
        he | hle
      · rw [he, List.nil_append, countTokens_singleton]
        omega
      · rw [countTokens_append, countTokens_singleton]
        omega

/-- C8 (confirmed): each of the four observed trimming operations — the
pair-aware count-based `trimChatHistory` (ceiling 25), the two plain
count-based server trims (ceilings 50 and 5), and the token-budget trim —
is idempotent: a second application returns its input unchanged. -/
theorem c8_trims_idempotent (h g k m : List GMsg) :
    trimChatHistory (trimChatHistory h) = trimChatHistory h ∧
    memoryTrim (memoryTrim g) = memoryTrim g ∧
    shortTrim (shortTrim k) = shortTrim k ∧
    trimTokens (trimTokens m) = trimTokens m := by
  refine ⟨?_, ?_, ?_, ?_⟩
  · by_cases hf : MAX_HISTORY_LENGTH < h.length
    · have hle := trimChatHistory_length_le h hf
      generalize hx : trimChatHistory h = x at hle ⊢
      rw [trimChatHistory, if_neg (not_lt.mpr hle)]
    · have hid : trimChatHistory h = h := by rw [trimChatHistory, if_neg hf]
      rw [hid, hid]
  · by_cases hf : 50 < g.length
    · have hle : (memoryTrim g).length ≤ 50 := by
        rw [memoryTrim, if_pos hf]
        simp only [List.length_append, List.length_take, List.length_drop]
        omega
      generalize hx : memoryTrim g = x at hle ⊢
      rw [memoryTrim, if_neg (not_lt.mpr hle)]
    · have hid : memoryTrim g = g := by rw [memoryTrim, if_neg hf]
      rw [hid, hid]
  · by_cases hf : 5 < k.length
    · have hle : (shortTrim k).length ≤ 5 := by
        rw [shortTrim, if_pos hf]
        simp only [List.length_append, List.length_take, List.length_drop]
        omega
      generalize hx : shortTrim k = x at hle ⊢
      rw [shortTrim, if_neg (not_lt.mpr hle)]
    · have hid : shortTrim k = k := by rw [shortTrim, if_neg hf]
      rw [hid, hid]
  · by_cases hf : MAX_TOKENS < countTokens m
    · have hinner : trimTokens m =
          m.take 2 ++ collectRecent m (countTokens (m.take 2)) (m.length - 1) := by
        rw [trimTokens, if_pos hf]
      rcases collectRecent_budget m (m.length - 1) (countTokens (m.take 2)) with he | hle
      · rw [hinner, he, List.append_nil]
        by_cases hf2 : MAX_TOKENS < countTokens (m.take 2)
        · rw [trimTokens, if_pos hf2]
          have hlen : (m.take 2).length ≤ 2 := by
            simp [List.length_take]
          have htt : (m.take 2).take 2 = m.take 2 := List.take_of_length_le hlen
          have hcoll : collectRecent (m.take 2)
              (countTokens (m.take 2)) ((m.take 2).length - 1) = [] :=
            collectRecent_low _ _ _ (by omega)
          simp only [htt, hcoll, List.append_nil]
        · rw [trimTokens, if_neg hf2]
      · have hsmall : ¬ MAX_TOKENS < countTokens (trimTokens m) := by
          rw [hinner, countTokens_append]
          omega
        generalize hx : trimTokens m = x at hsmall ⊢
        rw [trimTokens, if_neg hsmall]
    · have hid : trimTokens m = m := by rw [trimTokens, if_neg hf]
      rw [hid, hid]

/- ================================================================
   §13  Theorems: token-budget trim (claim C7)
   ================================================================ -/

/-- Token count of a cons cell. -/
theorem countTokens_cons (m : GMsg) (l : List GMsg) :
    countTokens (m :: l) = msgTokens m + countTokens l := by
  rw [countTokens]
  simp only [List.foldl_cons]
  rw [countTokens_foldl]
  omega

/-- Token count of a replicated message. -/
theorem countTokens_replicate (n : Nat) (m : GMsg) :
    countTokens (List.replicate n m) = n * msgTokens m := by
  induction n with
  | zero => simp [countTokens]
  | succ k ih =>
    rw [List.replicate_succ, countTokens_cons, ih]
    ring

/-- The one-word message counts as a single approximate token. -/
theorem msgTokens_msgA : msgTokens msgA = 1 := rfl

/-- On the uniform one-token history, the backward accumulation collects
exactly `min (i-1) (budget remaining)` messages. -/
theorem collectRecent_bigH_length :
    ∀ i, i < 262145 → ∀ t,
      (collectRecent bigH t i).length = min (i - 1) (MAX_TOKENS - t)
  | 0, _, t => by
    simp [collectRecent]
  | 1, _, t => by
    simp [collectRecent]
  | i + 2, hi, t => by
    have hget : bigH.getD (i + 2) default = msgA := by
      rw [bigH, List.getD_eq_getElem?_getD, List.getElem?_replicate, if_pos hi]
      rfl
    simp only [collectRecent, hget, msgTokens_msgA]
    by_cases hc : MAX_TOKENS < t + 1
    · rw [if_pos hc]
      simp only [List.length_nil, MAX_TOKENS] at *
      omega
    · rw [if_neg hc]
      simp only [List.length_append, List.length_singleton]
      rw [collectRecent_bigH_length (i + 1) (by omega) (t + 1)]
      simp only [MAX_TOKENS] at *
      omega

/-- C7 (corrected): the claim as frozen is false on the code.  On a history
of 262145 one-token messages the code's trim retains 2 priming plus 262142
recent messages — because `let tokens = countTokens(systemMessages)` starts
the accumulator at the priming messages' own token count, so those tokens
do consume the budget — while the trim described by the claim (priming kept
outside the budget count) would retain all 262143 recent messages. -/
theorem c7_counterexample :
    MAX_TOKENS < countTokens bigH ∧
    (trimTokens bigH).length = 262144 ∧
    (specTokenTrim bigH).length = 262145 ∧
    ¬ trimTokens bigH = specTokenTrim bigH := by
  have hlen : bigH.length = 262145 := by
    rw [bigH, List.length_replicate]
  have hcount : countTokens bigH = 262145 := by
    rw [bigH, countTokens_replicate, msgTokens_msgA]
  have hfire : MAX_TOKENS < countTokens bigH := by
    rw [hcount]; decide
  have htake : countTokens (bigH.take 2) = 2 := by
    rw [bigH, List.take_replicate, countTokens_replicate, msgTokens_msgA]
    omega
  have h1 : (trimTokens bigH).length = 262144 := by
    rw [trimTokens, if_pos hfire]
    simp only [List.length_append, List.length_take, htake, hlen]
    rw [collectRecent_bigH_length (262145 - 1) (by omega) 2]
    simp only [MAX_TOKENS]
    omega
  have h2 : (specTokenTrim bigH).length = 262145 := by
    rw [specTokenTrim, if_pos hfire]
    simp only [List.length_append, List.length_take, hlen]
    rw [collectRecent_bigH_length (262145 - 1) (by omega) 0]
    simp only [MAX_TOKENS]
    omega
  refine ⟨hfire, h1, h2, fun heq => ?_⟩
  rw [heq, h2] at h1
  omega

/-- The backward accumulation always returns a contiguous suffix of the
prefix it walks, within budget relative to its starting accumulator, and
maximal (it stops only at index 2 or because the next message would
overflow). -/
theorem collectRecent_spec (h : List GMsg) :
    ∀ i t, i < h.length →
      ∃ k, 2 ≤ k ∧ k ≤ max 2 (i + 1) ∧
        collectRecent h t i = (h.take (i + 1)).drop k ∧
        (t + countTokens ((h.take (i + 1)).drop k) ≤ MAX_TOKENS ∨
          MAX_TOKENS < t) ∧
        (k = 2 ∨ MAX_TOKENS < t + countTokens ((h.take (i + 1)).drop k) +
          msgTokens (h.getD (k - 1) default))
  | 0, t, _ => by
    refine ⟨2, le_refl 2, by omega, ?_, ?_, Or.inl rfl⟩
    · rw [List.drop_eq_nil_of_le (by simp [List.length_take])]
      rfl
    · rw [List.drop_eq_nil_of_le (by simp [List.length_take])]
      show t + countTokens [] ≤ MAX_TOKENS ∨ MAX_TOKENS < t
      rw [show countTokens [] = 0 from rfl]
      omega
  | 1, t, _ => by
    refine ⟨2, le_refl 2, by omega, ?_, ?_, Or.inl rfl⟩
    · rw [List.drop_eq_nil_of_le (by simp [List.length_take])]
      rfl
    · rw [List.drop_eq_nil_of_le (by simp [List.length_take])]
      show t + countTokens [] ≤ MAX_TOKENS ∨ MAX_TOKENS < t
      rw [show countTokens [] = 0 from rfl]
      omega
  | i + 2, t, hi => by
    by_cases hc : MAX_TOKENS < t + msgTokens (h.getD (i + 2) default)
    · refine ⟨i + 3, by omega, le_max_right _ _, ?_, ?_, Or.inr ?_⟩
      · simp only [collectRecent]
        rw [if_pos hc, List.drop_eq_nil_of_le (by simp [List.length_take])]
      · rw [List.drop_eq_nil_of_le (by simp [List.length_take])]
        rw [show countTokens [] = 0 from rfl]
        omega
      · rw [List.drop_eq_nil_of_le (by simp [List.length_take])]
        rw [show countTokens [] = 0 from rfl]
        simpa using hc
    · obtain ⟨k, hk2, hkle, heq, hbudget, hgreedy⟩ :=
        collectRecent_spec h (i + 1) (t + msgTokens (h.getD (i + 2) default))
          (by omega)
      simp only [show i + 1 + 1 = i + 2 from rfl] at heq hkle hbudget hgreedy
      have hkle' : k ≤ i + 2 := by
        have : max 2 (i + 2) = i + 2 := by omega
        omega
      have htlen : (h.take (i + 2)).length = i + 2 := by
        simp [List.length_take]
        omega
      have hgetD : h.getD (i + 2) default = h.get ⟨i + 2, hi⟩ := by
        rw [List.getD_eq_getElem?_getD, List.getElem?_eq_getElem hi]
        rfl
      have hsplit : (h.take (i + 3)).drop k =
          (h.take (i + 2)).drop k ++ [h.get ⟨i + 2, hi⟩] := by
        have hconcat : h.take (i + 2) ++ [h.get ⟨i + 2, hi⟩] = h.take (i + 3) :=
          List.take_concat_get' h (i + 2) hi
        rw [← hconcat, List.drop_append_eq_append_drop, htlen,
          show k - (i + 2) = 0 by omega, List.drop_zero]
      refine ⟨k, hk2, by omega, ?_, ?_, ?_⟩
      · simp only [collectRecent]
        rw [if_neg hc, heq, hsplit, hgetD]
      · rcases hbudget with hb | hb
        · left
          rw [hsplit, countTokens_append, countTokens_singleton, ← hgetD]
          omega
        · exact absurd hb hc
      · rcases hgreedy with hg | hg
        · exact Or.inl hg
        · right
          rw [hsplit, countTokens_append, countTokens_singleton, ← hgetD]
          omega

/-- C7 (amended): when the approximate token count exceeds the budget, the
trim keeps the first 2 priming messages and a contiguous run of the most
recent messages, chosen by walking backward while the running total —
initialised with the priming messages' own token count, which therefore
does consume the budget — stays within `MAX_TOKENS`; the walk stops either
at the priming boundary or because the next older message would overflow. -/
theorem c7_amended (h : List GMsg) (hf : MAX_TOKENS < countTokens h) :
    ∃ k, 2 ≤ k ∧ k ≤ max 2 h.length ∧
      trimTokens h = h.take 2 ++ h.drop k ∧
      (countTokens (h.take 2) + countTokens (h.drop k) ≤ MAX_TOKENS ∨
        MAX_TOKENS < countTokens (h.take 2)) ∧
      (k = 2 ∨ MAX_TOKENS < countTokens (h.take 2) + countTokens (h.drop k) +
        msgTokens (h.getD (k - 1) default)) := by
  have hne : h ≠ [] := by
    intro he
    rw [he] at hf
    exact absurd hf (by rw [show countTokens [] = 0 from rfl]; simp [MAX_TOKENS])
  have hpos : 1 ≤ h.length := by
    cases h with
    | nil => exact absurd rfl hne
    | cons a l => simp
  obtain ⟨k, hk2, hkle, heq, hbudget, hgreedy⟩ :=
    collectRecent_spec h (h.length - 1) (countTokens (h.take 2)) (by omega)
  have hidx : h.length - 1 + 1 = h.length := by omega
  rw [hidx] at heq hkle hbudget hgreedy
  rw [List.take_length] at heq hbudget hgreedy
  refine ⟨k, hk2, hkle, ?_, hbudget, hgreedy⟩
  rw [trimTokens, if_pos hf]
  show h.take 2 ++ collectRecent h (countTokens (h.take 2)) (h.length - 1) =
    h.take 2 ++ h.drop k
  rw [heq]

/-- Closed witness for C7 (amended), at the over-budget uniform history. -/
theorem c7_amended_witness :
    MAX_TOKENS < countTokens bigH ∧
    ∃ k, 2 ≤ k ∧ k ≤ max 2 bigH.length ∧
      trimTokens bigH = bigH.take 2 ++ bigH.drop k ∧
      (countTokens (bigH.take 2) + countTokens (bigH.drop k) ≤ MAX_TOKENS ∨
        MAX_TOKENS < countTokens (bigH.take 2)) ∧
      (k = 2 ∨ MAX_TOKENS < countTokens (bigH.take 2) + countTokens (bigH.drop k) +
        msgTokens (bigH.getD (k - 1) default)) := by
  have hfire : MAX_TOKENS < countTokens bigH := by
    rw [bigH, countTokens_replicate, msgTokens_msgA]
    decide
  exact ⟨hfire, c7_amended bigH hfire⟩

/- ================================================================
   §14  Theorems: count-based pair-aware trim (claim C6)
   ================================================================ -/

/-- An out-of-range index is never an orphaned invocation. -/
theorem isOrphanAt_none (h : List GMsg) (i : Nat) (hnone : h[i]? = none) :
    isOrphanAt h i = false := by
  rw [isOrphanAt, hnone]

/-- A message that is not a model tool invocation is never an orphan. -/
theorem isOrphanAt_not_call (h : List GMsg) (i : Nat) (m : GMsg)
    (hm : h[i]? = some m)
    (hcall : (m.role == "model" && hasFunctionCall m) = false) :
    isOrphanAt h i = false := by
  rw [isOrphanAt, hm]
  cases h[i + 1]? <;> simp [hcall]

/-- An invocation immediately followed by a matching tool result is never an
orphan. -/
theorem isOrphanAt_resp (h : List GMsg) (i : Nat) (m nx : GMsg)
    (hm : h[i]? = some m) (hn : h[i + 1]? = some nx)
    (hok : (nx.role == "user" && hasFunctionResponse nx) = true) :
    isOrphanAt h i = false := by
  rw [isOrphanAt, hm, hn]
  simp at hok
  simp [hok]

/-- Conversely, a non-orphaned model invocation has a matching successor. -/
theorem orphanFalse_succ (h : List GMsg) (i : Nat) (m : GMsg)
    (hwp : isOrphanAt h i = false) (hm : h[i]? = some m)
    (hcall : (m.role == "model" && hasFunctionCall m) = true) :
    ∃ nx, h[i + 1]? = some nx ∧
      (nx.role == "user" && hasFunctionResponse nx) = true := by
  rw [isOrphanAt, hm] at hwp
  cases hn : h[i + 1]? with
  | none =>
    rw [hn] at hwp
    simp [hcall] at hwp
  | some nx =>
    rw [hn] at hwp
    simp [hcall] at hwp
    exact ⟨nx, rfl, by simp [hwp]⟩

/-- The decidable pairing invariant gives orphan-freedom at every index. -/
theorem wellPaired_all (h : List GMsg) (hwp : wellPairedB h = true) :
    ∀ i, isOrphanAt h i = false := by
  intro i
  by_cases hl : i < h.length
  · rw [wellPairedB, List.all_eq_true] at hwp
    have := hwp i (List.mem_range.mpr hl)
    simpa using this
  · exact isOrphanAt_none h i (List.getElem?_eq_none (by omega))

/-- The backward scan finds no orphan when there is none. -/
theorem lastOrphanBelow_none (h : List GMsg) :
    ∀ bound, (∀ j, j < bound → isOrphanAt h j = false) →
      lastOrphanBelow h bound = none := by
  intro bound
  induction bound with
  | zero => intro _; rfl
  | succ b ih =>
    intro hall
    rw [lastOrphanBelow, if_neg (by simp [hall b (by omega)])]
    exact ih (fun j hj => hall j (by omega))

/-- Under the pairing invariant the valid end index is the history length. -/
theorem validEnd_wellPaired (h : List GMsg) (hwp : wellPairedB h = true) :
    validEnd h = h.length := by
  rw [validEnd, lastOrphanBelow_none h h.length
    (fun j _ => wellPaired_all h hwp j)]

/-- Under the pairing invariant the trim keeps the 2 priming messages plus
exactly the 23 most recent ones. -/
theorem trimChatHistory_wellPaired (h : List GMsg)
    (hlen : MAX_HISTORY_LENGTH < h.length) (hwp : wellPairedB h = true) :
    trimChatHistory h = h.take 2 ++ h.drop (h.length - 23) := by
  rw [trimChatHistory, if_pos hlen, validEnd_wellPaired h hwp]
  simp only [MAX_HISTORY_LENGTH, PRESERVE_SYSTEM_MESSAGES] at hlen ⊢
  rw [List.take_length, Nat.max_eq_right (by omega : 2 ≤ h.length - 23)]

/-- Element lookup in the trimmed history, low region. -/
theorem trimmed_get_lo (h : List GMsg) (hlen : 25 < h.length) (i : Nat)
    (hi : i < 2) :
    (h.take 2 ++ h.drop (h.length - 23))[i]? = h[i]? := by
  rw [List.getElem?_append]
  have h2 : (h.take 2).length = 2 := by
    simp [List.length_take]
    omega
  rw [if_pos (by omega), List.getElem?_take, if_pos hi]

/-- Element lookup in the trimmed history, high region. -/
theorem trimmed_get_hi (h : List GMsg) (hlen : 25 < h.length) (i : Nat)
    (hi : 2 ≤ i) :
    (h.take 2 ++ h.drop (h.length - 23))[i]? = h[h.length - 25 + i]? := by
  rw [List.getElem?_append]
  have h2 : (h.take 2).length = 2 := by
    simp [List.length_take]
    omega
  rw [if_neg (by omega), h2, List.getElem?_drop]
  rw [show h.length - 23 + (i - 2) = h.length - 25 + i by omega]

/-- C6 (corrected, part 2): the amended description.  When the count trim
fires on a history satisfying the pairing invariant whose 2 priming
messages contain no tool invocation, the result is exactly the 2 priming
messages followed by the 23 most recent messages, and the result again
satisfies the pairing invariant — no tool invocation is retained without
its immediately-following matching tool result.  (A tool *result* whose
invocation fell just before the front cut may however be retained without
it, which is what refutes the original claim.) -/
theorem c6_amended (h : List GMsg) (hlen : MAX_HISTORY_LENGTH < h.length)
    (hwp : wellPairedB h = true) (hpc : noPrimingCall h = true) :
    trimChatHistory h = h.take 2 ++ h.drop (h.length - 23) ∧
    (∀ i, isOrphanAt (trimChatHistory h) i = false) := by
  have heq := trimChatHistory_wellPaired h hlen hwp
  have hlen' : 25 < h.length := by
    simpa [MAX_HISTORY_LENGTH] using hlen
  refine ⟨heq, ?_⟩
  intro i
  rw [heq]
  have houtlen : (h.take 2 ++ h.drop (h.length - 23)).length = 25 := by
    simp only [List.length_append, List.length_take, List.length_drop]
    omega
  by_cases hi25 : 25 ≤ i
  · exact isOrphanAt_none _ i (List.getElem?_eq_none (by omega))
  · by_cases hi2 : i < 2
    · cases hm : (h.take 2 ++ h.drop (h.length - 23))[i]? with
      | none => exact isOrphanAt_none _ i hm
      | some m =>
        have hm' : h[i]? = some m := by
          rw [← trimmed_get_lo h hlen' i hi2]
          exact hm
        have hmem : m ∈ h.take 2 := by
          have : (h.take 2)[i]? = some m := by
            rw [List.getElem?_take, if_pos hi2]
            exact hm'
          exact List.getElem?_mem this
        have hnc : (m.role == "model" && hasFunctionCall m) = false := by
          rw [noPrimingCall, List.all_eq_true] at hpc
          have := hpc m hmem
          simp only [Bool.not_eq_true', Bool.and_eq_false_iff] at this ⊢
          simpa using this
        exact isOrphanAt_not_call _ i m hm hnc
    · -- 2 ≤ i ≤ 24
      push_neg at hi2
      cases hm : (h.take 2 ++ h.drop (h.length - 23))[i]? with
      | none => exact isOrphanAt_none _ i hm
      | some m =>
        have hm' : h[h.length - 25 + i]? = some m := by
          rw [← trimmed_get_hi h hlen' i hi2]
          exact hm
        by_cases hcall : (m.role == "model" && hasFunctionCall m) = true
        · -- the message is an invocation: find its successor
          have hidx : h.length - 25 + i < h.length := by
            by_contra hge
            push_neg at hge
            rw [List.getElem?_eq_none hge] at hm'
            exact Option.noConfusion hm'
          obtain ⟨nx, hnx, hok⟩ := orphanFalse_succ h (h.length - 25 + i) m
            (wellPaired_all h hwp _) hm' hcall
          have hi24 : i < 24 := by
            by_contra h24
            push_neg at h24
            have hi24' : i = 24 := by omega
            subst hi24'
            have : h.length - 25 + 24 = h.length - 1 := by omega
            rw [this] at hnx
            have : h.length - 1 + 1 = h.length := by omega
            rw [this] at hnx
            rw [List.getElem?_eq_none (le_refl h.length)] at hnx
            exact Option.noConfusion hnx
          have hnx' : (h.take 2 ++ h.drop (h.length - 23))[i + 1]? = some nx := by
            rw [trimmed_get_hi h hlen' (i + 1) (by omega)]
            rw [show h.length - 25 + (i + 1) = h.length - 25 + i + 1 by omega]
            exact hnx
          exact isOrphanAt_resp _ i m nx hm hnx' hok
        · exact isOrphanAt_not_call _ i m hm (by simpa using hcall)

/-- C6 (corrected, part 1): the claim as frozen is false on the code.  On a
26-message history whose single tool-invocation/tool-result pair sits at
indices 2 and 3 — immediately after the priming messages — the trim keeps
the result message but cuts its invocation: the pair is split across the
front cut boundary (`startIndex`), which the backward scan never guards
(it only walks the end boundary). -/
theorem c6_counterexample :
    MAX_HISTORY_LENGTH < cex6.length ∧
    cex6[2]? = some callM ∧ cex6[3]? = some respM ∧
    (callM.role == "model" && hasFunctionCall callM) = true ∧
    (respM.role == "user" && hasFunctionResponse respM) = true ∧
    respM ∈ trimChatHistory cex6 ∧
    ¬ callM ∈ trimChatHistory cex6 := by
  refine ⟨by decide, by decide, by decide, by decide, by decide, by decide, by decide⟩

/-- Closed witness for C6 (amended), at a 26-message well-paired history
with call-free priming messages. -/
theorem c6_amended_witness :
    MAX_HISTORY_LENGTH < wp26.length ∧ wellPairedB wp26 = true ∧
    noPrimingCall wp26 = true ∧
    trimChatHistory wp26 = wp26.take 2 ++ wp26.drop (wp26.length - 23) ∧
    (∀ i, isOrphanAt (trimChatHistory wp26) i = false) := by
  have h1 : MAX_HISTORY_LENGTH < wp26.length := by decide
  have h2 : wellPairedB wp26 = true := by decide
  have h3 : noPrimingCall wp26 = true := by decide
  exact ⟨h1, h2, h3, (c6_amended wp26 h1 h2 h3).1, (c6_amended wp26 h1 h2 h3).2⟩

/- ================================================================
   §15  Theorems: relationship summary (claim C10)
   ================================================================ -/

/-- Normalisation of the accumulate-by-append folds used by the summary. -/
theorem foldl_append_flatten {α β : Type} (f : α → List β) :
    ∀ (l : List α) (init : List β),
      l.foldl (fun acc a => acc ++ f a) init = init ++ (l.map f).flatten := by
  intro l
  induction l with
  | nil => intro init; simp
  | cons a rest ih =>
    intro init
    simp only [List.foldl_cons, List.map_cons, List.flatten_cons]
    rw [ih, List.append_assoc]

/-- Membership of an edge's endpoints in `relEndpoints`. -/
theorem mem_relEndpoints (pairs : List RelPair) (p : RelPair) (r : RelEdge)
    (hp : p ∈ pairs) (hr : r ∈ p.relationships) :
    r.fromC ∈ relEndpoints pairs ∧ r.toC ∈ relEndpoints pairs := by
  rw [relEndpoints, foldl_append_flatten, List.nil_append]
  have hinner : p.relationships.foldl (fun a e => a ++ [e.fromC, e.toC]) [] =
      (p.relationships.map (fun e => [e.fromC, e.toC])).flatten := by
    rw [foldl_append_flatten, List.nil_append]
  constructor
  · rw [List.mem_flatten]
    refine ⟨_, List.mem_map_of_mem _ hp, ?_⟩
    rw [hinner, List.mem_flatten]
    exact ⟨_, List.mem_map_of_mem _ hr, by simp⟩
  · rw [List.mem_flatten]
    refine ⟨_, List.mem_map_of_mem _ hp, ?_⟩
    rw [hinner, List.mem_flatten]
    exact ⟨_, List.mem_map_of_mem _ hr, by simp⟩

/-- `ensureKey` preserves endpoint closure. -/
theorem ensureKey_inside (E : List String) (adj : List (String × List String))
    (k : String) (ha : adjInside E adj) (hk : k ∈ E) :
    adjInside E (ensureKey adj k) := by
  rw [ensureKey]
  by_cases hc : adj.any (fun e => e.1 == k)
  · rw [if_pos hc]; exact ha
  · rw [if_neg hc]
    intro e he
    rcases List.mem_append.mp he with h | h
    · exact ha e h
    · simp at h
      rw [h]
      exact ⟨hk, by simp⟩

/-- `addToSet` preserves endpoint closure. -/
theorem addToSet_inside (E : List String) (adj : List (String × List String))
    (k v : String) (ha : adjInside E adj) (hv : v ∈ E) :
    adjInside E (addToSet adj k v) := by
  rw [addToSet]
  intro e he
  rcases List.mem_map.mp he with ⟨e0, he0, heq⟩
  by_cases hk : e0.1 == k
  · rw [if_pos hk] at heq
    rcases ha e0 he0 with ⟨h1, h2⟩
    rw [← heq]
    refine ⟨h1, ?_⟩
    by_cases hcont : e0.2.contains v
    · rw [if_pos hcont]
      exact h2
    · rw [if_neg (by simpa using hcont)]
      intro x hx
      rcases List.mem_append.mp hx with h | h
      · exact h2 x h
      · simp at h
        rw [h]; exact hv
  · rw [if_neg hk] at heq
    rw [← heq]
    exact ha e0 he0

/-- `addEdge` preserves endpoint closure. -/
theorem addEdge_inside (E : List String) (adj : List (String × List String))
    (r : RelEdge) (ha : adjInside E adj) (hf : r.fromC ∈ E) (ht : r.toC ∈ E) :
    adjInside E (addEdge adj r) := by
  rw [addEdge]
  exact addToSet_inside E _ _ _
    (addToSet_inside E _ _ _
      (ensureKey_inside E _ _ (ensureKey_inside E _ _ ha hf) ht) ht) hf

/-- The adjacency map built from the accepted pairs mentions only endpoints
of accepted edges. -/
theorem buildConnections_inside (pairs : List RelPair) :
    adjInside (relEndpoints pairs) (buildConnections pairs) := by
  rw [buildConnections]
  have hgen : ∀ (ps : List RelPair) (adj : List (String × List String)),
      (∀ p ∈ ps, p ∈ pairs) → adjInside (relEndpoints pairs) adj →
      adjInside (relEndpoints pairs)
        (ps.foldl (fun a p => p.relationships.foldl addEdge a) adj) := by
    intro ps
    induction ps with
    | nil => intro adj _ ha; exact ha
    | cons p rest ih =>
      intro adj hmem ha
      simp only [List.foldl_cons]
      refine ih _ (fun q hq => hmem q (by simp [hq])) ?_
      have hedge : ∀ (es : List RelEdge) (a : List (String × List String)),
          (∀ r ∈ es, r ∈ p.relationships) → adjInside (relEndpoints pairs) a →
          adjInside (relEndpoints pairs) (es.foldl addEdge a) := by
        intro es
        induction es with
        | nil => intro a _ haa; exact haa
        | cons r rest2 ih2 =>
          intro a hmem2 haa
          simp only [List.foldl_cons]
          refine ih2 _ (fun q hq => hmem2 q (by simp [hq])) ?_
          obtain ⟨h1, h2⟩ := mem_relEndpoints pairs p r (hmem p (by simp))
            (hmem2 r (by simp))
          exact addEdge_inside _ _ _ haa h1 h2
      exact hedge p.relationships adj (fun r hr => hr) ha
  exact hgen pairs [] (fun p hp => hp) (by intro e he; simp at he)

/-- Every neighbour list entry is a value of the adjacency map. -/
theorem neighborsOf_subset (adj : List (String × List String)) (k : String) :
    ∀ x ∈ neighborsOf adj k, x ∈ adjValues adj := by
  intro x hx
  rw [neighborsOf] at hx
  cases hf : adj.find? (fun e => e.1 == k) with
  | none => rw [hf] at hx; simp at hx
  | some e =>
    rw [hf] at hx
    simp at hx
    rw [adjValues, List.mem_flatten]
    exact ⟨e.2, List.mem_map_of_mem _ (List.mem_of_find?_eq_some hf), hx⟩

/-- The visited list after a traversal is the old one extended by the group. -/
theorem bfsGroup_visited (adj : List (String × List String)) :
    ∀ fuel q v, (bfsGroup adj fuel q v).2 = v ++ (bfsGroup adj fuel q v).1 := by
  intro fuel
  induction fuel with
  | zero => intro q v; simp [bfsGroup]
  | succ k ih =>
    intro q v
    cases q with
    | nil => simp [bfsGroup]
    | cons current queue =>
      simp only [bfsGroup]
      by_cases hc : v.contains current
      · rw [if_pos hc]
        exact ih queue v
      · rw [if_neg hc]
        simp only []
        rw [ih]
        simp

/-- The group is duplicate-free and disjoint from the incoming visited
list. -/
theorem bfsGroup_fresh (adj : List (String × List String)) :
    ∀ fuel q v, (bfsGroup adj fuel q v).1.Nodup ∧
      ∀ x ∈ (bfsGroup adj fuel q v).1, x ∉ v := by
  intro fuel
  induction fuel with
  | zero => intro q v; simp [bfsGroup]
  | succ k ih =>
    intro q v
    cases q with
    | nil => simp [bfsGroup]
    | cons current queue =>
      simp only [bfsGroup]
      by_cases hc : v.contains current
      · rw [if_pos hc]
        exact ih queue v
      · rw [if_neg hc]
        simp only []
        obtain ⟨hnodup, hfresh⟩ := ih (queue ++ (neighborsOf adj current).filter
          (fun c => !(v ++ [current]).contains c)) (v ++ [current])
        have hcur : current ∉ v := by
          intro hmem
          exact absurd (List.elem_iff.mpr hmem) (by simpa using hc)
        constructor
        · refine List.nodup_cons.mpr ⟨?_, hnodup⟩
          intro hmem
          have := hfresh current hmem
          simp at this
        · intro x hx
          rcases List.mem_cons.mp hx with h | h
          · rw [h]; exact hcur
          · have := hfresh x h
            intro hxv
            exact this (by simp [hxv])

/-- Every group member came from the initial queue or from a neighbour
list. -/
theorem bfsGroup_subset (adj : List (String × List String)) :
    ∀ fuel q v, ∀ x ∈ (bfsGroup adj fuel q v).1, x ∈ q ∨ x ∈ adjValues adj := by
  intro fuel
  induction fuel with
  | zero => intro q v x hx; simp [bfsGroup] at hx
  | succ k ih =>
    intro q v x hx
    cases q with
    | nil => simp [bfsGroup] at hx
    | cons current queue =>
      simp only [bfsGroup] at hx
      by_cases hc : v.contains current
      · rw [if_pos hc] at hx
        rcases ih queue v x hx with h | h
        · exact Or.inl (by simp [h])
        · exact Or.inr h
      · rw [if_neg hc] at hx
        simp only [] at hx
        rcases List.mem_cons.mp hx with h | h
        · exact Or.inl (by simp [h])
        · rcases ih _ _ x h with h2 | h2
          · rcases List.mem_append.mp h2 with h3 | h3
            · exact Or.inl (by simp [h3])
            · exact Or.inr (neighborsOf_subset adj current x
                (List.mem_of_mem_filter h3))
          · exact Or.inr h2

/-- The grouping pass preserves its invariant: groups are recorded in the
shared visited list, pairwise disjoint, duplicate-free, of size at least 2,
and drawn from the adjacency map's keys and values. -/
theorem buildGroups_fold_inv (adj : List (String × List String)) :
    ∀ (ks : List String) (groups : List (List String)) (visited : List String),
      (∀ g ∈ groups, ∀ x ∈ g, x ∈ visited) →
      List.Pairwise (fun g1 g2 => ∀ x ∈ g1, x ∉ g2) groups →
      (∀ g ∈ groups, g.Nodup ∧ 2 ≤ g.length ∧
        ∀ x ∈ g, x ∈ adj.map (fun e => e.1) ∨ x ∈ adjValues adj) →
      (∀ k ∈ ks, k ∈ adj.map (fun e => e.1)) →
      ((∀ g ∈ (ks.foldl (fun acc k =>
          if acc.2.contains k then acc
          else
            ((if 1 < (findConnectedGroup adj k acc.2).1.length then
                acc.1 ++ [(findConnectedGroup adj k acc.2).1] else acc.1),
              (findConnectedGroup adj k acc.2).2))
          (groups, visited)).1, ∀ x ∈ g, x ∈ (ks.foldl (fun acc k =>
          if acc.2.contains k then acc
          else
            ((if 1 < (findConnectedGroup adj k acc.2).1.length then
                acc.1 ++ [(findConnectedGroup adj k acc.2).1] else acc.1),
              (findConnectedGroup adj k acc.2).2))
          (groups, visited)).2) ∧
       List.Pairwise (fun g1 g2 => ∀ x ∈ g1, x ∉ g2) ((ks.foldl (fun acc k =>
          if acc.2.contains k then acc
          else
            ((if 1 < (findConnectedGroup adj k acc.2).1.length then
                acc.1 ++ [(findConnectedGroup adj k acc.2).1] else acc.1),
              (findConnectedGroup adj k acc.2).2))
          (groups, visited)).1) ∧
       (∀ g ∈ (ks.foldl (fun acc k =>
          if acc.2.contains k then acc
          else
            ((if 1 < (findConnectedGroup adj k acc.2).1.length then
                acc.1 ++ [(findConnectedGroup adj k acc.2).1] else acc.1),
              (findConnectedGroup adj k acc.2).2))
          (groups, visited)).1, g.Nodup ∧ 2 ≤ g.length ∧
        ∀ x ∈ g, x ∈ adj.map (fun e => e.1) ∨ x ∈ adjValues adj)) := by
  intro ks
  induction ks with
  | nil =>
    intro groups visited hvis hdisj hprops _
    exact ⟨hvis, hdisj, hprops⟩
  | cons k rest ih =>
    intro groups visited hvis hdisj hprops hks
    simp only [List.foldl_cons]
    by_cases hc : visited.contains k
    · rw [if_pos hc]
      exact ih groups visited hvis hdisj hprops
        (fun q hq => hks q (by simp [hq]))
    · rw [if_neg hc]
      have hv2 := bfsGroup_visited adj (bfsFuel adj) [k] visited
      have hfr := bfsGroup_fresh adj (bfsFuel adj) [k] visited
      have hsub := bfsGroup_subset adj (bfsFuel adj) [k] visited
      set g0 := (findConnectedGroup adj k visited).1 with hg0
      have hvis2 : (findConnectedGroup adj k visited).2 = visited ++ g0 := hv2
      by_cases hbig : 1 < g0.length
      · rw [if_pos hbig, hvis2]
        refine ih (groups ++ [g0]) (visited ++ g0) ?_ ?_ ?_
          (fun q hq => hks q (by simp [hq]))
        · intro g hg x hx
          rcases List.mem_append.mp hg with h | h
          · exact List.mem_append_left _ (hvis g h x hx)
          · simp at h
            rw [h] at hx
            exact List.mem_append_right _ hx
        · rw [List.pairwise_append]
          refine ⟨hdisj, by simp, ?_⟩
          intro g1 hg1 g2 hg2 x hx1
          simp at hg2
          rw [hg2]
          intro hx2
          exact hfr.2 x hx2 (hvis g1 hg1 x hx1)
        · intro g hg
          rcases List.mem_append.mp hg with h | h
          · exact hprops g h
          · simp at h
            rw [h]
            refine ⟨hfr.1, by omega, ?_⟩
            intro x hx
            rcases hsub x hx with h2 | h2
            · simp at h2
              rw [h2]
              exact Or.inl (hks k (by simp))
            · exact Or.inr h2
      · rw [if_neg hbig, hvis2]
        refine ih groups (visited ++ g0) ?_ hdisj hprops
          (fun q hq => hks q (by simp [hq]))
        intro g hg x hx
        exact List.mem_append_left _ (hvis g hg x hx)

/-- C10 (confirmed): for every accepted-relationship list, strong plus weak
counts equal the total number of individual edges (each counted once,
strong exactly when its strength is at least 0.5), and the reported
collection groups are pairwise disjoint, duplicate-free, of size at least
two, and drawn from the endpoints of the accepted edges. -/
theorem c10_summary_invariants (pairs : List RelPair) :
    (generateRelationshipSummary pairs).strongRelationships +
      (generateRelationshipSummary pairs).weakRelationships =
      (pairs.map (fun p => p.relationships.length)).sum ∧
    List.Pairwise (fun g1 g2 => ∀ x ∈ g1, x ∉ g2)
      (generateRelationshipSummary pairs).collectionGroups ∧
    (∀ g ∈ (generateRelationshipSummary pairs).collectionGroups,
      g.Nodup ∧ 2 ≤ g.length ∧ ∀ x ∈ g, x ∈ relEndpoints pairs) := by
  have hedges : pairs.foldl (fun acc p => acc ++ p.relationships) [] =
      (pairs.map (fun p => p.relationships)).flatten := by
    rw [foldl_append_flatten, List.nil_append]
  have hinv := buildGroups_fold_inv (buildConnections pairs)
    ((buildConnections pairs).map (fun e => e.1)) [] []
    (by intro g hg; simp at hg)
    (by simp)
    (by intro g hg; simp at hg)
    (fun k hk => hk)
  have hbuild : generateRelationshipSummary pairs =
      { totalRelationships := pairs.length
        strongRelationships := (((pairs.map (fun p => p.relationships)).flatten).filter
          (fun r => decide ((1:ℚ)/2 ≤ r.strength))).length
        weakRelationships := (((pairs.map (fun p => p.relationships)).flatten).filter
          (fun r => !decide ((1:ℚ)/2 ≤ r.strength))).length
        collectionGroups := buildGroups (buildConnections pairs) } := by
    rw [generateRelationshipSummary]
    simp only [hedges]
  refine ⟨?_, ?_, ?_⟩
  · rw [hbuild]
    show (((pairs.map (fun p => p.relationships)).flatten).filter _).length +
      (((pairs.map (fun p => p.relationships)).flatten).filter _).length = _
    rw [← List.length_eq_length_filter_add
      (fun r : RelEdge => decide ((1:ℚ)/2 ≤ r.strength))]
    rw [List.length_flatten, List.map_map]
    rfl
  · rw [hbuild]
    show List.Pairwise _ (buildGroups (buildConnections pairs))
    rw [buildGroups]
    exact hinv.2.1
  · rw [hbuild]
    intro g hg
    rw [buildGroups] at hg
    obtain ⟨hnd, hlen, hmem⟩ := hinv.2.2 g hg
    refine ⟨hnd, hlen, ?_⟩
    intro x hx
    have hin := buildConnections_inside pairs
    rcases hmem x hx with h | h
    · rcases List.mem_map.mp h with ⟨e, he, heq⟩
      rw [← heq]
      exact (hin e he).1
    · rw [adjValues, List.mem_flatten] at h
      obtain ⟨vs, hvs, hxvs⟩ := h
      rcases List.mem_map.mp hvs with ⟨e, he, heq⟩
      rw [← heq] at hxvs
      exact (hin e he).2 x hxvs

/-- Closed witness for C10 at a single accepted pair with one strong edge. -/
theorem c10_witness :
    (generateRelationshipSummary samplePairs).strongRelationships +
      (generateRelationshipSummary samplePairs).weakRelationships =
      (samplePairs.map (fun p => p.relationships.length)).sum ∧
    (∀ g ∈ (generateRelationshipSummary samplePairs).collectionGroups,
      g.Nodup ∧ 2 ≤ g.length ∧ ∀ x ∈ g, x ∈ relEndpoints samplePairs) :=
  ⟨(c10_summary_invariants samplePairs).1, (c10_summary_invariants samplePairs).2.2⟩
